import Mathlib

/-!
A shallow embedding of the pub/sub broker of `broker.go`

The broker keeps two registries, `b.subscribers` (id ↦ subscriber) and
`b.topics` (topic ↦ id ↦ subscriber).  Both hold *pointers* to `Subscriber`
objects, and every subscriber carries its own topic set `s.topics`, so the
embedding threads an explicit store of subscriber objects (`heap`) through
every operation.  Locks, channels and goroutines are not modelled: the
operations are the sequential bodies of the Go methods, and `Broadcast`
returns the list of `Signal` calls it dispatches.

A pointer is an index into the store.  An index past the end of the store
stands for a pointer to no object (`nil`): Go panics when a method reads or
writes through it, while here the read gives the zero `Subscriber` and the
write is dropped, so statements that depend on `s` being an object carry the
hypothesis `s < b.heap.length`.
-/

namespace Pubsub

/-! ## Go maps with string keys -/

/-- Value bound to key `k` in a list of entries, `none` when `k` is absent. -/
def lookupE {V : Type} : List (String × V) → String → Option V
  | [], _ => none
  | (k', v) :: r, k => if k' = k then some v else lookupE r k

/-- Entries after `m[k] = v`: an existing entry is overwritten where it
stands, a new key is added at the end. -/
def setE {V : Type} : List (String × V) → String → V → List (String × V)
  | [], k, v => [(k, v)]
  | (k', v') :: r, k, v => if k' = k then (k, v) :: r else (k', v') :: setE r k v

/-- Entries after `delete(m, k)`. -/
def deleteE {V : Type} : List (String × V) → String → List (String × V)
  | [], _ => []
  | (k', v) :: r, k => if k' = k then deleteE r k else (k', v) :: deleteE r k

theorem keys_setE {V : Type} (l : List (String × V)) (k : String) (v : V) :
    (setE l k v).map Prod.fst =
      if k ∈ l.map Prod.fst then l.map Prod.fst else l.map Prod.fst ++ [k] := by
  induction l with
  | nil => simp [setE]
  | cons e r ih =>
    obtain ⟨k', v'⟩ := e
    by_cases h : k' = k
    · subst h; simp [setE]
    · have h' : ¬ k = k' := fun e => h e.symm
      simp only [setE, h, if_false, List.map_cons, ih, List.mem_cons, h', false_or]
      split <;> simp

theorem nodup_setE {V : Type} (l : List (String × V)) (k : String) (v : V)
    (h : (l.map Prod.fst).Nodup) : ((setE l k v).map Prod.fst).Nodup := by
  rw [keys_setE]
  split
  · exact h
  · rename_i hk
    exact List.Nodup.append h (List.nodup_singleton k) (by simpa using hk)

theorem keys_deleteE_sublist {V : Type} (l : List (String × V)) (k : String) :
    List.Sublist ((deleteE l k).map Prod.fst) (l.map Prod.fst) := by
  induction l with
  | nil => simp [deleteE]
  | cons e r ih =>
    obtain ⟨k', v'⟩ := e
    by_cases h : k' = k
    · simpa [deleteE, h] using List.Sublist.cons k ih
    · simpa [deleteE, h] using ih

theorem nodup_deleteE {V : Type} (l : List (String × V)) (k : String)
    (h : (l.map Prod.fst).Nodup) : ((deleteE l k).map Prod.fst).Nodup :=
  List.Nodup.sublist (keys_deleteE_sublist l k) h

/-- A Go `map[string]V`: finitely many entries with pairwise distinct keys.
The order of `entries` stands for the (unspecified) iteration order of the
map. -/
structure GoMap (V : Type) where
  entries : List (String × V)
  nodup : (entries.map Prod.fst).Nodup

namespace GoMap

variable {V : Type}

/-- The empty map literal, `map[string]V{}`. -/
def empty : GoMap V := ⟨[], List.nodup_nil⟩

/-- Lookup `m[k]`; `none` stands for the zero value returned for an absent key. -/
def get (m : GoMap V) (k : String) : Option V := lookupE m.entries k

/-- The keys, in iteration order. -/
def keys (m : GoMap V) : List String := m.entries.map Prod.fst

/-- The values, in iteration order. -/
def values (m : GoMap V) : List V := m.entries.map Prod.snd

/-- Go's `len(m)`. -/
def len (m : GoMap V) : Nat := m.entries.length

/-- Go's `m[k] = v`. -/
def set (m : GoMap V) (k : String) (v : V) : GoMap V :=
  ⟨setE m.entries k v, nodup_setE m.entries k v m.nodup⟩

/-- Go's `delete(m, k)`. -/
def delete (m : GoMap V) (k : String) : GoMap V :=
  ⟨deleteE m.entries k, nodup_deleteE m.entries k m.nodup⟩

end GoMap

instance {V : Type} [DecidableEq V] : DecidableEq (GoMap V) := fun a b =>
  decidable_of_iff (a.entries = b.entries)
    ⟨fun h => by cases a; cases b; cases h; rfl, fun h => by rw [h]⟩

/-! ## Data model -/

/-- A `*Subscriber`: the index of the object in the store. -/
abbrev Ptr := Nat

/-- A byte. -/
abbrev Byte := Fin 256

/-- A Go `error` value. -/
abbrev Error := String

/-- The `Subscriber` struct as `Attach` builds it; the channel `messages` and the
lock are left out. -/
structure Subscriber where
  id : String
  createdAt : Int
  destroyed : Bool
  topics : GoMap Bool
deriving DecidableEq

/-- The `Broker` struct (`subscribers`, `topics`; the two locks are left out)
together with `heap`, the store of the `Subscriber` objects its pointers refer to. -/
structure Broker where
  subscribers : GoMap Ptr
  topics : GoMap (GoMap Ptr)
  heap : List Subscriber
deriving DecidableEq

/-- The `Message` struct built by `Broadcast`. -/
structure Message (P : Type) where
  topic : String
  payload : P
  createdAt : Int
deriving DecidableEq

/-- One dispatched `go s.Signal(m)`. -/
structure Delivery (P : Type) where
  target : Ptr
  msg : Message P
deriving DecidableEq

/-- The zero `Subscriber`, read through a pointer that refers to no object. -/
def Subscriber.zero : Subscriber := ⟨"", 0, false, GoMap.empty⟩

/-- The object `*p`. -/
def deref (h : List Subscriber) (p : Ptr) : Subscriber := h.getD p Subscriber.zero

/-- Store after `p.topics = t`. -/
def setTopics (h : List Subscriber) (p : Ptr) (t : GoMap Bool) : List Subscriber :=
  h.set p { deref h p with topics := t }

/-! ## Operations of `broker.go` -/

/-- One hexadecimal digit of Go's `encoding/hex`. -/
def hexDigit (n : Nat) : Char :=
  match n with
  | 0 => '0' | 1 => '1' | 2 => '2' | 3 => '3' | 4 => '4' | 5 => '5' | 6 => '6' | 7 => '7'
  | 8 => '8' | 9 => '9' | 10 => 'a' | 11 => 'b' | 12 => 'c' | 13 => 'd' | 14 => 'e' | _ => 'f'

/-- Go's `hex.EncodeToString`: two lower-case digits per byte, high nibble first. -/
def hexEncode (bs : List Byte) : String :=
  String.mk (bs.flatMap (fun x => [hexDigit (x.val / 16), hexDigit (x.val % 16)]))

/-- The constructor `NewBroker()`: both registries empty. -/
def NewBroker : Broker := ⟨GoMap.empty, GoMap.empty, []⟩

/-- The method `Broker.Attach`.  `rnd` is the outcome of `rand.Read(id)` (the error, or the
bytes it left in the buffer) and `now` the reading of `time.Now().UnixNano()`.
Returns the error, or the new pointer and the new state. -/
def Attach (b : Broker) (rnd : Except Error (List Byte)) (now : Int) :
    Except Error (Ptr × Broker) :=
  match rnd with
  | .error err => .error err
  | .ok id =>
    let s : Subscriber :=
      { id := hexEncode id, createdAt := now, destroyed := false, topics := GoMap.empty }
    .ok (b.heap.length,
      { b with heap := b.heap ++ [s], subscribers := b.subscribers.set s.id b.heap.length })

/-- Body of the loop of `Broker.Subscribe` for one topic. -/
def subscribeOne (s : Ptr) (b : Broker) (topic : String) : Broker :=
  let tps := if b.topics.get topic = none then b.topics.set topic GoMap.empty else b.topics
  let heap := setTopics b.heap s ((deref b.heap s).topics.set topic true)
  { b with
    heap := heap
    topics := tps.set topic (((tps.get topic).getD GoMap.empty).set (deref heap s).id s) }

/-- The method `Broker.Subscribe`: the loop over the topics. -/
def Subscribe (b : Broker) (s : Ptr) (topics : List String) : Broker :=
  topics.foldl (subscribeOne s) b

/-- Body of the loop of `Broker.Unsubscribe` for one topic. -/
def unsubscribeOne (s : Ptr) (b : Broker) (topic : String) : Broker :=
  match b.topics.get topic with
  | none => b
  | some m =>
    { b with
      topics := b.topics.set topic (m.delete (deref b.heap s).id)
      heap := setTopics b.heap s ((deref b.heap s).topics.delete topic) }

/-- The method `Broker.Unsubscribe`: the loop over the topics. -/
def Unsubscribe (b : Broker) (s : Ptr) (topics : List String) : Broker :=
  topics.foldl (unsubscribeOne s) b

/-- Modelled from the spec: `Subscriber.destroy` is not in `broker.go`; the spec
has Detach "mark the subscriber destroyed", so it sets the `destroyed` flag. -/
def destroy (h : List Subscriber) (p : Ptr) : List Subscriber :=
  h.set p { deref h p with destroyed := true }

/-- State after `s.destroy()`. -/
def destroyIn (b : Broker) (s : Ptr) : Broker := { b with heap := destroy b.heap s }

/-- Modelled from the spec: `Subscriber.GetTopics` is not in `broker.go`; it
returns the names in the subscriber's topic set. -/
def Subscriber.GetTopics (x : Subscriber) : List String := x.topics.keys

/-- The method `Broker.Detach`: destroy, unsubscribe from `s.GetTopics()`, then
`delete(b.subscribers, s.id)`. -/
def Detach (b : Broker) (s : Ptr) : Broker :=
  let b1 := destroyIn b s
  let b2 := Unsubscribe b1 s (deref b1.heap s).GetTopics
  { b2 with subscribers := b2.subscribers.delete (deref b2.heap s).id }

/-- The method `Broker.Subscribers`: `len(b.topics[topic])`, which is 0 for an absent topic. -/
def Subscribers (b : Broker) (topic : String) : Nat :=
  match b.topics.get topic with
  | none => 0
  | some m => m.len

/-- The members `b.topics[topic]` ranged over by `Broadcast` (none for an absent topic). -/
def members (b : Broker) (topic : String) : List (String × Ptr) :=
  match b.topics.get topic with
  | none => []
  | some m => m.entries

/-- Inner loop of `Broadcast`: one fresh message and one `Signal` per member;
the `n`-th message built during the call is stamped `clock n`. -/
def dispatch {P : Type} (clock : Nat → Int) (payload : P) (topic : String) :
    Nat → List (String × Ptr) → List (Delivery P)
  | _, [] => []
  | n, (_, s) :: r =>
    ⟨s, ⟨topic, payload, clock n⟩⟩ :: dispatch clock payload topic (n + 1) r

/-- Outer loop of `Broadcast`, `n` messages having been built so far. -/
def broadcastFrom {P : Type} (b : Broker) (clock : Nat → Int) (payload : P) :
    Nat → List String → List (Delivery P)
  | _, [] => []
  | n, topic :: rest =>
    if Subscribers b topic < 1 then broadcastFrom b clock payload n rest
    else dispatch clock payload topic n (members b topic) ++
      broadcastFrom b clock payload (n + (members b topic).length) rest

/-- The method `Broker.Broadcast`: the `Signal` calls it dispatches, in dispatch order. -/
def Broadcast {P : Type} (b : Broker) (clock : Nat → Int) (payload : P)
    (topics : List String) : List (Delivery P) :=
  broadcastFrom b clock payload 0 topics

/-! ## Membership, the invariant and reachable states -/

/-- The id `s.id` of the subscriber behind pointer `s`. -/
def idOf (b : Broker) (s : Ptr) : String := (deref b.heap s).id

/-- The topic set `s.topics` of the subscriber behind pointer `s`. -/
def topicsOf (b : Broker) (s : Ptr) : GoMap Bool := (deref b.heap s).topics

/-- The string `id` is a key of `b.topics[topic]`. -/
def IsKey (b : Broker) (topic id : String) : Prop := id ∈ (members b topic).map Prod.fst

instance (b : Broker) (topic id : String) : Decidable (IsKey b topic id) := by
  unfold IsKey; infer_instance

/-- The topic-membership invariant: for every subscriber object `s` and topic `T`,
`s.id` is a key of `b.topics[T]` iff `T` is a key of `s.topics`. -/
def MembershipInv (b : Broker) : Prop :=
  ∀ s, s < b.heap.length → ∀ T, IsKey b T (idOf b s) ↔ T ∈ (topicsOf b s).keys

/-- Consistency of a state with respect to the store: the topic-membership
invariant holds, distinct subscriber objects have distinct ids, and every entry of
a topic's set is keyed by the id of the subscriber object it points to. -/
structure Good (b : Broker) : Prop where
  inv : MembershipInv b
  ids : ∀ p q, p < b.heap.length → q < b.heap.length → idOf b p = idOf b q → p = q
  keyed : ∀ T m k p, b.topics.get T = some m → m.get k = some p →
    p < b.heap.length ∧ idOf b p = k

/-- One call of the broker's mutating API. -/
inductive Op where
  | attach (rnd : Except Error (List Byte)) (now : Int)
  | subscribe (s : Ptr) (topics : List String)
  | unsubscribe (s : Ptr) (topics : List String)
  | detach (s : Ptr)

/-- State after the call. A failed `Attach` leaves the state as it was. -/
def Op.apply (b : Broker) : Op → Broker
  | .attach rnd now =>
    match Attach b rnd now with
    | .ok r => r.2
    | .error _ => b
  | .subscribe s topics => Subscribe b s topics
  | .unsubscribe s topics => Unsubscribe b s topics
  | .detach s => Detach b s

/-- The call is one a client can make in state `b`: its subscriber argument was
returned by an earlier `Attach`, and an `Attach` draws an id no earlier subscriber has. -/
def Op.Legal (b : Broker) : Op → Prop
  | .attach (.ok r) _ => hexEncode r ∉ b.heap.map Subscriber.id
  | .attach (.error _) _ => True
  | .subscribe s _ => s < b.heap.length
  | .unsubscribe s _ => s < b.heap.length
  | .detach s => s < b.heap.length

/-- State after a sequence of calls. -/
def run (b : Broker) (ops : List Op) : Broker := ops.foldl Op.apply b

/-- Every call of the sequence is legal in the state it is made in. -/
def LegalTrace : Broker → List Op → Prop
  | _, [] => True
  | b, op :: rest => op.Legal b ∧ LegalTrace (op.apply b) rest

/-- The states reachable from `NewBroker()` by legal calls. -/
def Reachable (b : Broker) : Prop := ∃ ops, LegalTrace NewBroker ops ∧ run NewBroker ops = b

/-- The call is `Subscribe(s, ...)`. -/
def Op.isSubscribeOf (s : Ptr) : Op → Bool
  | .subscribe s' _ => decide (s' = s)
  | _ => false

/-- Pointer `s` is stored in no topic's subscriber set. -/
def NotStored (b : Broker) (s : Ptr) : Prop :=
  ∀ T m k, b.topics.get T = some m → m.get k ≠ some s

instance Op.decLegal (b : Broker) : (op : Op) → Decidable (op.Legal b)
  | .attach (.ok r) _ => inferInstanceAs (Decidable (hexEncode r ∉ b.heap.map Subscriber.id))
  | .attach (.error _) _ => isTrue trivial
  | .subscribe s _ => inferInstanceAs (Decidable (s < b.heap.length))
  | .unsubscribe s _ => inferInstanceAs (Decidable (s < b.heap.length))
  | .detach s => inferInstanceAs (Decidable (s < b.heap.length))

instance decLegalTrace : (b : Broker) → (ops : List Op) → Decidable (LegalTrace b ops)
  | _, [] => isTrue trivial
  | b, op :: rest =>
    @instDecidableAnd _ _ (Op.decLegal b op) (decLegalTrace (op.apply b) rest)

/-! ## The scenario of the spec -/

/-- Random bytes drawn by the first `Attach` of the scenario. -/
def rnd1 : List Byte := List.replicate 50 0x11

/-- Random bytes drawn by the second `Attach` of the scenario. -/
def rnd2 : List Byte := List.replicate 50 0x22

/-- Attach s1, s2; Subscribe(s1, "news"); Subscribe(s2, "news", "sports").
The two `Attach` calls return the pointers 0 and 1. -/
def scenarioOps : List Op :=
  [.attach (.ok rnd1) 1000, .attach (.ok rnd2) 2000,
   .subscribe 0 ["news"], .subscribe 1 ["news", "sports"]]

/-- State at the end of the scenario. -/
def scenario : Broker := run NewBroker scenarioOps

/-- Calls made after `Detach(s2)` in the scenario: none is a `Subscribe(s2, ...)`. -/
def laterOps : List Op :=
  [.subscribe 0 ["sports"], .attach (.ok (List.replicate 50 0x33)) 3000,
   .unsubscribe 1 ["news"], .detach 1]

/-- State in which "sports" has an entry without subscribers: the scenario after
`Unsubscribe(s2, "sports")`. -/
def scenarioEmptied : Broker := Unsubscribe scenario 1 ["sports"]

/-! ## Further operations and notions -/

/-- The method `Broker.GetTopics`: the keys of `b.topics`, in iteration order. -/
def GetTopics (b : Broker) : List String := b.topics.keys

/-- The topic names passed to `Subscribe` by the calls of a sequence. -/
def subscribedNames : List Op → List String
  | [] => []
  | .subscribe _ ts :: rest => ts ++ subscribedNames rest
  | _ :: rest => subscribedNames rest

/-- The calls `Attach()` of a run of consecutive attachments, one per draw of the
randomness source (the bytes drawn and the clock reading). -/
def attachOps (draws : List (List Byte × Int)) : List Op :=
  draws.map (fun d => Op.attach (.ok d.1) d.2)

/-- The subscriber object built by `Attach` from the bytes `r` at time `now`. -/
def newSubscriber (r : List Byte) (now : Int) : Subscriber :=
  { id := hexEncode r, createdAt := now, destroyed := false, topics := GoMap.empty }

/-- Three draws of random bytes, pairwise distinct. -/
def draws3 : List (List Byte × Int) :=
  [(List.replicate 50 0x01, 10), (List.replicate 49 0x01 ++ [0x02], 20),
   (List.replicate 50 0xff, 30)]

/-- What a method does to the topic registry and its lock `b.tlock`, in program
order: `b.tlock.RLock()`, `b.tlock.RUnlock()`, or a read of `b.topics[topic]`. -/
inductive LockEvent where
  | rlock
  | runlock
  | read (topic : String)
deriving DecidableEq

/-- Events of `b.Subscribers(topic)`: take the read lock, read
`len(b.topics[topic])`, release the lock on return (the deferred call). -/
def SubscribersEvents (topic : String) : List LockEvent :=
  [.rlock, .read topic, .runlock]

/-- Events of `Broadcast`: for each topic the call of `b.Subscribers(topic)`, then,
unless the topic is skipped, the `range b.topics[topic]` of line 89, around which
the method makes no lock call. -/
def BroadcastEvents (b : Broker) : List String → List LockEvent
  | [] => []
  | topic :: rest =>
    SubscribersEvents topic ++
      (if Subscribers b topic < 1 then [] else [.read topic]) ++ BroadcastEvents b rest

/-- Every read of the trace happens while the read lock is held; `held` is the
number of read locks held when the trace starts. -/
def readsLocked : Nat → List LockEvent → Bool
  | _, [] => true
  | held, .rlock :: rest => readsLocked (held + 1) rest
  | held, .runlock :: rest => readsLocked (held - 1) rest
  | held, .read _ :: rest => decide (0 < held) && readsLocked held rest

/-- What a delivery attempt carries besides the time stamp: the subscriber
signalled, the topic and the payload. -/
def Delivery.attempt {P : Type} (d : Delivery P) : Ptr × String × P :=
  (d.target, d.msg.topic, d.msg.payload)

/-- The subscriber stored under the id `k` in `b.topics[topic]`, if any. -/
def memberAt (b : Broker) (topic k : String) : Option Ptr := lookupE (members b topic) k

/-- The call is one a client makes when it never passes a detached subscriber to
`Subscribe`: it is legal, and the subscriber given to `Subscribe` is not destroyed
(`Detach` alone sets the flag, and nothing clears it). -/
def Op.LegalLive (b : Broker) : Op → Prop
  | .attach rnd now => (Op.attach rnd now).Legal b
  | .subscribe s _ => s < b.heap.length ∧ (deref b.heap s).destroyed = false
  | .unsubscribe s _ => s < b.heap.length
  | .detach s => s < b.heap.length

/-- Every call of the sequence is legal and none subscribes a detached subscriber. -/
def LiveTrace : Broker → List Op → Prop
  | _, [] => True
  | b, op :: rest => op.LegalLive b ∧ LiveTrace (op.apply b) rest

/-- The states reachable from `NewBroker()` by legal calls none of which passes a
detached subscriber to `Subscribe`. -/
def ReachableLive (b : Broker) : Prop :=
  ∃ ops, LiveTrace NewBroker ops ∧ run NewBroker ops = b

/-- Consistency of a state in which no detached subscriber was subscribed again:
it is `Good`, every subscriber object not destroyed is registered under its id, and
no topic's set stores a destroyed subscriber. -/
structure Live (b : Broker) : Prop where
  good : Good b
  registered : ∀ p, p < b.heap.length → (deref b.heap p).destroyed = false →
    b.subscribers.get (idOf b p) = some p
  alive : ∀ T m k p, b.topics.get T = some m → m.get k = some p →
    (deref b.heap p).destroyed = false

instance Op.decLegalLive (b : Broker) : (op : Op) → Decidable (op.LegalLive b)
  | .attach rnd now => Op.decLegal b (.attach rnd now)
  | .subscribe s _ =>
    inferInstanceAs (Decidable (s < b.heap.length ∧ (deref b.heap s).destroyed = false))
  | .unsubscribe s _ => inferInstanceAs (Decidable (s < b.heap.length))
  | .detach s => inferInstanceAs (Decidable (s < b.heap.length))

instance decLiveTrace : (b : Broker) → (ops : List Op) → Decidable (LiveTrace b ops)
  | _, [] => isTrue trivial
  | b, op :: rest =>
    @instDecidableAnd _ _ (Op.decLegalLive b op) (decLiveTrace (op.apply b) rest)

/-- Calls after which s2 is detached and s1 is still subscribed to "news"; no
detached subscriber is subscribed again. -/
def liveOps : List Op :=
  scenarioOps ++ [.detach 1, .subscribe 0 ["weather"], .unsubscribe 1 ["news"]]

/-! ## Lemmas on maps -/

theorem lookupE_eq_none {V : Type} (l : List (String × V)) (k : String) :
    lookupE l k = none ↔ k ∉ l.map Prod.fst := by
  induction l with
  | nil => simp [lookupE]
  | cons e r ih =>
    obtain ⟨k', v'⟩ := e
    by_cases h : k' = k
    · simp [lookupE, h]
    · have h' : ¬ k = k' := fun e => h e.symm
      simp [lookupE, h, h', ih]

theorem lookupE_setE {V : Type} (l : List (String × V)) (k k' : String) (v : V) :
    lookupE (setE l k v) k' = if k' = k then some v else lookupE l k' := by
  induction l with
  | nil =>
    by_cases h : k = k'
    · subst h; simp [setE, lookupE]
    · have h' : ¬ k' = k := fun e => h e.symm
      simp [setE, lookupE, h, h']
  | cons e r ih =>
    obtain ⟨k0, v0⟩ := e
    by_cases h0 : k0 = k
    · subst h0
      by_cases h : k0 = k'
      · subst h; simp [setE, lookupE]
      · have h' : ¬ k' = k0 := fun e => h e.symm
        simp [setE, lookupE, h, h']
    · by_cases h : k0 = k'
      · subst h; simp [setE, lookupE, h0]
      · simp [setE, lookupE, h0, h, ih]

theorem lookupE_deleteE {V : Type} (l : List (String × V)) (k k' : String) :
    lookupE (deleteE l k) k' = if k' = k then none else lookupE l k' := by
  induction l with
  | nil => simp [deleteE, lookupE]
  | cons e r ih =>
    obtain ⟨k0, v0⟩ := e
    by_cases h0 : k0 = k
    · subst h0
      by_cases h : k' = k0
      · subst h; simpa [lookupE, deleteE] using ih
      · have h' : ¬ k0 = k' := fun e => h e.symm
        simpa [lookupE, deleteE, h, h'] using ih
    · by_cases h : k0 = k'
      · subst h; simp [lookupE, deleteE, h0]
      · simp [lookupE, deleteE, h0, h, ih]

theorem setE_eq_self {V : Type} (l : List (String × V)) (k : String) (v : V)
    (h : lookupE l k = some v) : setE l k v = l := by
  induction l with
  | nil => simp [lookupE] at h
  | cons e r ih =>
    obtain ⟨k0, v0⟩ := e
    by_cases h0 : k0 = k
    · subst h0; simp [lookupE] at h; simp [setE, h]
    · simp [lookupE, h0] at h; simp [setE, h0, ih h]

theorem deleteE_eq_self {V : Type} (l : List (String × V)) (k : String)
    (h : k ∉ l.map Prod.fst) : deleteE l k = l := by
  induction l with
  | nil => simp [deleteE]
  | cons e r ih =>
    obtain ⟨k0, v0⟩ := e
    simp only [List.map_cons, List.mem_cons, not_or] at h
    have h0 : ¬ k0 = k := fun e => h.1 e.symm
    simp [deleteE, h0, ih h.2]

theorem deleteE_setE_new {V : Type} (l : List (String × V)) (k : String) (v : V)
    (h : k ∉ l.map Prod.fst) : deleteE (setE l k v) k = l := by
  induction l with
  | nil => simp [setE, deleteE]
  | cons e r ih =>
    obtain ⟨k0, v0⟩ := e
    simp only [List.map_cons, List.mem_cons, not_or] at h
    have h0 : ¬ k0 = k := fun e => h.1 e.symm
    simp [setE, deleteE, h0, ih h.2]

theorem length_setE {V : Type} (l : List (String × V)) (k : String) (v : V) :
    (setE l k v).length = if k ∈ l.map Prod.fst then l.length else l.length + 1 := by
  have := congrArg List.length (keys_setE l k v)
  rw [List.length_map] at this
  rw [this]
  split <;> simp

theorem length_deleteE {V : Type} (l : List (String × V)) (k : String)
    (hn : (l.map Prod.fst).Nodup) :
    (deleteE l k).length = if k ∈ l.map Prod.fst then l.length - 1 else l.length := by
  induction l with
  | nil => simp [deleteE]
  | cons e r ih =>
    obtain ⟨k0, v0⟩ := e
    simp only [List.map_cons, List.nodup_cons] at hn
    by_cases h0 : k0 = k
    · subst h0
      simp [deleteE, deleteE_eq_self r k0 hn.1]
    · have h' : ¬ k = k0 := fun e => h0 e.symm
      simp only [deleteE, h0, if_false, List.length_cons, ih hn.2, List.map_cons,
        List.mem_cons, h', false_or]
      split
      · rename_i hk
        have : 0 < r.length := by
          cases r with
          | nil => simp at hk
          | cons _ _ => simp
        omega
      · rfl

theorem lookupE_eq_some {V : Type} (l : List (String × V)) (k : String) (v : V)
    (hn : (l.map Prod.fst).Nodup) : lookupE l k = some v ↔ (k, v) ∈ l := by
  induction l with
  | nil => simp [lookupE]
  | cons e r ih =>
    obtain ⟨k0, v0⟩ := e
    simp only [List.map_cons, List.nodup_cons] at hn
    by_cases h0 : k0 = k
    · subst h0
      have : ∀ v, (k0, v) ∉ r := fun v hv => hn.1 (List.mem_map_of_mem Prod.fst hv)
      simp [lookupE, this]
      exact eq_comm
    · have h' : ¬ k = k0 := fun e => h0 e.symm
      simp [lookupE, h0, h', ih hn.2]

namespace GoMap

variable {V : Type}

theorem ext {m m' : GoMap V} (h : m.entries = m'.entries) : m = m' := by
  cases m; cases m'; cases h; rfl

@[simp] theorem get_empty (k : String) : (empty : GoMap V).get k = none := rfl

@[simp] theorem keys_empty : (empty : GoMap V).keys = [] := rfl

@[simp] theorem len_empty : (empty : GoMap V).len = 0 := rfl

theorem get_set (m : GoMap V) (k k' : String) (v : V) :
    (m.set k v).get k' = if k' = k then some v else m.get k' :=
  lookupE_setE m.entries k k' v

theorem get_delete (m : GoMap V) (k k' : String) :
    (m.delete k).get k' = if k' = k then none else m.get k' :=
  lookupE_deleteE m.entries k k'

theorem get_eq_none (m : GoMap V) (k : String) : m.get k = none ↔ k ∉ m.keys :=
  lookupE_eq_none m.entries k

theorem mem_keys (m : GoMap V) (k : String) : k ∈ m.keys ↔ ∃ v, m.get k = some v := by
  rw [← not_iff_not, ← get_eq_none]
  cases m.get k <;> simp

theorem get_eq_some (m : GoMap V) (k : String) (v : V) :
    m.get k = some v ↔ (k, v) ∈ m.entries :=
  lookupE_eq_some m.entries k v m.nodup

theorem set_eq_self (m : GoMap V) (k : String) (v : V) (h : m.get k = some v) :
    m.set k v = m :=
  ext (setE_eq_self m.entries k v h)

theorem delete_eq_self (m : GoMap V) (k : String) (h : k ∉ m.keys) : m.delete k = m :=
  ext (deleteE_eq_self m.entries k h)

theorem delete_set_new (m : GoMap V) (k : String) (v : V) (h : k ∉ m.keys) :
    (m.set k v).delete k = m :=
  ext (deleteE_setE_new m.entries k v h)

theorem len_set (m : GoMap V) (k : String) (v : V) :
    (m.set k v).len = if k ∈ m.keys then m.len else m.len + 1 :=
  length_setE m.entries k v

theorem len_delete (m : GoMap V) (k : String) :
    (m.delete k).len = if k ∈ m.keys then m.len - 1 else m.len :=
  length_deleteE m.entries k m.nodup

theorem mem_keys_set (m : GoMap V) (k k' : String) (v : V) :
    k' ∈ (m.set k v).keys ↔ k' = k ∨ k' ∈ m.keys := by
  simp only [mem_keys, get_set]
  by_cases h : k' = k <;> simp [h]

theorem mem_keys_delete (m : GoMap V) (k k' : String) :
    k' ∈ (m.delete k).keys ↔ k' ≠ k ∧ k' ∈ m.keys := by
  simp only [mem_keys, get_delete]
  by_cases h : k' = k <;> simp [h]

theorem keys_eq_nil_of_forall (m : GoMap V) (h : ∀ k, k ∉ m.keys) : m.entries = [] := by
  cases hm : m.entries with
  | nil => rfl
  | cons e r => exact absurd (by simp [keys, hm]) (h e.1)

end GoMap

/-! ## Lemmas on the store -/

theorem deref_setTopics_self (h : List Subscriber) (p : Ptr) (t : GoMap Bool)
    (hp : p < h.length) : deref (setTopics h p t) p = { deref h p with topics := t } := by
  simp [deref, setTopics, List.getD_eq_getElem?_getD, List.getElem?_set, hp]

theorem deref_setTopics_ne (h : List Subscriber) (p q : Ptr) (t : GoMap Bool)
    (hq : q ≠ p) : deref (setTopics h p t) q = deref h q := by
  simp [deref, setTopics, List.getD_eq_getElem?_getD, List.getElem?_set, Ne.symm hq]

@[simp] theorem length_setTopics (h : List Subscriber) (p : Ptr) (t : GoMap Bool) :
    (setTopics h p t).length = h.length := by
  simp [setTopics]

@[simp] theorem id_deref_setTopics (h : List Subscriber) (p q : Ptr) (t : GoMap Bool) :
    (deref (setTopics h p t) q).id = (deref h q).id := by
  by_cases hq : q = p
  · subst hq
    by_cases hp : q < h.length
    · rw [deref_setTopics_self h q t hp]
    · simp [setTopics, List.set_eq_of_length_le (Nat.le_of_not_lt hp)]
  · rw [deref_setTopics_ne h p q t hq]

@[simp] theorem destroyed_deref_setTopics (h : List Subscriber) (p q : Ptr) (t : GoMap Bool) :
    (deref (setTopics h p t) q).destroyed = (deref h q).destroyed := by
  by_cases hq : q = p
  · subst hq
    by_cases hp : q < h.length
    · rw [deref_setTopics_self h q t hp]
    · simp [setTopics, List.set_eq_of_length_le (Nat.le_of_not_lt hp)]
  · rw [deref_setTopics_ne h p q t hq]

theorem setTopics_eq_self (h : List Subscriber) (p : Ptr) (t : GoMap Bool)
    (ht : p < h.length → (deref h p).topics = t) : setTopics h p t = h := by
  by_cases hp : p < h.length
  · have := ht hp
    subst this
    apply List.ext_getElem
    · simp
    · intro n h1 h2
      simp only [setTopics, List.getElem_set]
      split
      · rename_i hn; subst hn
        simp [deref, List.getD_eq_getElem?_getD, List.getElem?_eq_getElem hp]
      · rfl
  · simp [setTopics, List.set_eq_of_length_le (Nat.le_of_not_lt hp)]

theorem deref_zero_of_invalid (h : List Subscriber) (p : Ptr) (hp : ¬ p < h.length) :
    deref h p = Subscriber.zero := by
  simp [deref, List.getD_eq_getElem?_getD, List.getElem?_eq_none (Nat.le_of_not_lt hp)]

namespace GoMap
variable {V : Type}

theorem set_set (m : GoMap V) (k : String) (v : V) : (m.set k v).set k v = m.set k v :=
  set_eq_self _ k v (by simp [get_set])

theorem delete_delete (m : GoMap V) (k : String) : (m.delete k).delete k = m.delete k :=
  delete_eq_self _ k (by simp [mem_keys_delete])

end GoMap

/-! ## One step of `Subscribe` and of `Unsubscribe` -/

theorem subscribeOne_subscribers (s : Ptr) (b : Broker) (t : String) :
    (subscribeOne s b t).subscribers = b.subscribers := rfl

theorem subscribeOne_heap (s : Ptr) (b : Broker) (t : String) :
    (subscribeOne s b t).heap = setTopics b.heap s ((topicsOf b s).set t true) := rfl

theorem subscribeOne_get (s : Ptr) (b : Broker) (t T : String) :
    (subscribeOne s b t).topics.get T =
      if T = t then some (((b.topics.get t).getD GoMap.empty).set (idOf b s) s)
      else b.topics.get T := by
  unfold subscribeOne idOf
  by_cases h : b.topics.get t = none
  · by_cases hT : T = t
    · simp [h, hT, GoMap.get_set]
    · simp [h, hT, GoMap.get_set]
  · by_cases hT : T = t
    · simp [h, hT, GoMap.get_set]
    · simp [h, hT, GoMap.get_set]

theorem unsubscribeOne_subscribers (s : Ptr) (b : Broker) (t : String) :
    (unsubscribeOne s b t).subscribers = b.subscribers := by
  unfold unsubscribeOne; split <;> rfl

theorem unsubscribeOne_heap (s : Ptr) (b : Broker) (t : String) :
    (unsubscribeOne s b t).heap =
      if b.topics.get t = none then b.heap
      else setTopics b.heap s ((topicsOf b s).delete t) := by
  unfold unsubscribeOne topicsOf; split <;> simp [*]

theorem unsubscribeOne_get (s : Ptr) (b : Broker) (t T : String) :
    (unsubscribeOne s b t).topics.get T =
      if T = t then (b.topics.get t).map (fun m => m.delete (idOf b s))
      else b.topics.get T := by
  unfold unsubscribeOne idOf
  split
  · rename_i h; by_cases hT : T = t <;> simp [h, hT]
  · rename_i m h; by_cases hT : T = t <;> simp [h, hT, GoMap.get_set]

@[simp] theorem subscribeOne_idOf (s q : Ptr) (b : Broker) (t : String) :
    idOf (subscribeOne s b t) q = idOf b q := by
  simp [idOf, subscribeOne_heap]

@[simp] theorem unsubscribeOne_idOf (s q : Ptr) (b : Broker) (t : String) :
    idOf (unsubscribeOne s b t) q = idOf b q := by
  simp only [idOf, unsubscribeOne_heap]; split <;> simp

@[simp] theorem subscribeOne_length (s : Ptr) (b : Broker) (t : String) :
    (subscribeOne s b t).heap.length = b.heap.length := by
  simp [subscribeOne_heap]

@[simp] theorem unsubscribeOne_length (s : Ptr) (b : Broker) (t : String) :
    (unsubscribeOne s b t).heap.length = b.heap.length := by
  simp only [unsubscribeOne_heap]; split <;> simp

theorem subscribeOne_deref_ne (s q : Ptr) (b : Broker) (t : String) (h : q ≠ s) :
    deref (subscribeOne s b t).heap q = deref b.heap q := by
  rw [subscribeOne_heap, deref_setTopics_ne _ _ _ _ h]

theorem unsubscribeOne_deref_ne (s q : Ptr) (b : Broker) (t : String) (h : q ≠ s) :
    deref (unsubscribeOne s b t).heap q = deref b.heap q := by
  rw [unsubscribeOne_heap]; split
  · rfl
  · rw [deref_setTopics_ne _ _ _ _ h]

theorem subscribeOne_topicsOf (s : Ptr) (b : Broker) (t : String) (hs : s < b.heap.length) :
    topicsOf (subscribeOne s b t) s = (topicsOf b s).set t true := by
  simp [topicsOf, subscribeOne_heap, deref_setTopics_self _ _ _ hs]

theorem deref_setTopics_invalid (h : List Subscriber) (p : Ptr) (t : GoMap Bool)
    (hp : ¬ p < h.length) : deref (setTopics h p t) p = Subscriber.zero :=
  deref_zero_of_invalid _ _ (by simpa using hp)

theorem unsubscribeOne_topicsOf_get (s : Ptr) (b : Broker) (t T : String) :
    (topicsOf (unsubscribeOne s b t) s).get T =
      if T = t ∧ b.topics.get t ≠ none then none else (topicsOf b s).get T := by
  simp only [topicsOf, unsubscribeOne_heap]
  by_cases h : b.topics.get t = none
  · simp [h]
  · by_cases hs : s < b.heap.length
    · simp [h, deref_setTopics_self _ _ _ hs, GoMap.get_delete]
    · rw [if_neg h, deref_setTopics_invalid _ _ _ hs, deref_zero_of_invalid _ _ hs]
      split <;> rfl

@[simp] theorem subscribeOne_destroyed (s q : Ptr) (b : Broker) (t : String) :
    (deref (subscribeOne s b t).heap q).destroyed = (deref b.heap q).destroyed := by
  simp [subscribeOne_heap]

@[simp] theorem unsubscribeOne_destroyed (s q : Ptr) (b : Broker) (t : String) :
    (deref (unsubscribeOne s b t).heap q).destroyed = (deref b.heap q).destroyed := by
  simp only [unsubscribeOne_heap]; split <;> simp

/-! ## The loops of `Subscribe` and `Unsubscribe` -/

theorem Subscribe_cons (b : Broker) (s : Ptr) (t : String) (ts : List String) :
    Subscribe b s (t :: ts) = Subscribe (subscribeOne s b t) s ts := rfl

theorem Unsubscribe_cons (b : Broker) (s : Ptr) (t : String) (ts : List String) :
    Unsubscribe b s (t :: ts) = Unsubscribe (unsubscribeOne s b t) s ts := rfl

@[simp] theorem Subscribe_subscribers (b : Broker) (s : Ptr) (ts : List String) :
    (Subscribe b s ts).subscribers = b.subscribers := by
  induction ts generalizing b with
  | nil => rfl
  | cons t ts ih => rw [Subscribe_cons, ih, subscribeOne_subscribers]

@[simp] theorem Unsubscribe_subscribers (b : Broker) (s : Ptr) (ts : List String) :
    (Unsubscribe b s ts).subscribers = b.subscribers := by
  induction ts generalizing b with
  | nil => rfl
  | cons t ts ih => rw [Unsubscribe_cons, ih, unsubscribeOne_subscribers]

@[simp] theorem Subscribe_idOf (b : Broker) (s q : Ptr) (ts : List String) :
    idOf (Subscribe b s ts) q = idOf b q := by
  induction ts generalizing b with
  | nil => rfl
  | cons t ts ih => rw [Subscribe_cons, ih, subscribeOne_idOf]

@[simp] theorem Unsubscribe_idOf (b : Broker) (s q : Ptr) (ts : List String) :
    idOf (Unsubscribe b s ts) q = idOf b q := by
  induction ts generalizing b with
  | nil => rfl
  | cons t ts ih => rw [Unsubscribe_cons, ih, unsubscribeOne_idOf]

@[simp] theorem Subscribe_length (b : Broker) (s : Ptr) (ts : List String) :
    (Subscribe b s ts).heap.length = b.heap.length := by
  induction ts generalizing b with
  | nil => rfl
  | cons t ts ih => rw [Subscribe_cons, ih, subscribeOne_length]

@[simp] theorem Unsubscribe_length (b : Broker) (s : Ptr) (ts : List String) :
    (Unsubscribe b s ts).heap.length = b.heap.length := by
  induction ts generalizing b with
  | nil => rfl
  | cons t ts ih => rw [Unsubscribe_cons, ih, unsubscribeOne_length]

theorem Subscribe_deref_ne (b : Broker) (s q : Ptr) (ts : List String) (h : q ≠ s) :
    deref (Subscribe b s ts).heap q = deref b.heap q := by
  induction ts generalizing b with
  | nil => rfl
  | cons t ts ih => rw [Subscribe_cons, ih, subscribeOne_deref_ne _ _ _ _ h]

theorem Unsubscribe_deref_ne (b : Broker) (s q : Ptr) (ts : List String) (h : q ≠ s) :
    deref (Unsubscribe b s ts).heap q = deref b.heap q := by
  induction ts generalizing b with
  | nil => rfl
  | cons t ts ih => rw [Unsubscribe_cons, ih, unsubscribeOne_deref_ne _ _ _ _ h]

@[simp] theorem Subscribe_destroyed (b : Broker) (s q : Ptr) (ts : List String) :
    (deref (Subscribe b s ts).heap q).destroyed = (deref b.heap q).destroyed := by
  induction ts generalizing b with
  | nil => rfl
  | cons t ts ih => rw [Subscribe_cons, ih, subscribeOne_destroyed]

@[simp] theorem Unsubscribe_destroyed (b : Broker) (s q : Ptr) (ts : List String) :
    (deref (Unsubscribe b s ts).heap q).destroyed = (deref b.heap q).destroyed := by
  induction ts generalizing b with
  | nil => rfl
  | cons t ts ih => rw [Unsubscribe_cons, ih, unsubscribeOne_destroyed]

theorem Subscribe_get (b : Broker) (s : Ptr) (ts : List String) (T : String) :
    (Subscribe b s ts).topics.get T =
      if T ∈ ts then some (((b.topics.get T).getD GoMap.empty).set (idOf b s) s)
      else b.topics.get T := by
  induction ts generalizing b with
  | nil => simp [Subscribe]
  | cons t ts ih =>
    rw [Subscribe_cons, ih, subscribeOne_get, subscribeOne_idOf]
    by_cases hT : T = t
    · subst hT
      by_cases hm : T ∈ ts <;> simp [hm, GoMap.set_set]
    · by_cases hm : T ∈ ts <;> simp [hm, hT]

theorem Unsubscribe_get (b : Broker) (s : Ptr) (ts : List String) (T : String) :
    (Unsubscribe b s ts).topics.get T =
      if T ∈ ts then (b.topics.get T).map (fun m => m.delete (idOf b s))
      else b.topics.get T := by
  induction ts generalizing b with
  | nil => simp [Unsubscribe]
  | cons t ts ih =>
    rw [Unsubscribe_cons, ih, unsubscribeOne_get, unsubscribeOne_idOf]
    by_cases hT : T = t
    · subst hT
      by_cases hm : T ∈ ts
      · cases hg : b.topics.get T <;> simp [hm, GoMap.delete_delete]
      · simp [hm]
    · by_cases hm : T ∈ ts <;> simp [hm, hT]

theorem Subscribe_topicsOf_get (b : Broker) (s : Ptr) (ts : List String) (T : String)
    (hs : s < b.heap.length) :
    (topicsOf (Subscribe b s ts) s).get T =
      if T ∈ ts then some true else (topicsOf b s).get T := by
  induction ts generalizing b with
  | nil => simp [Subscribe]
  | cons t ts ih =>
    rw [Subscribe_cons, ih _ (by simpa using hs), subscribeOne_topicsOf _ _ _ hs,
      GoMap.get_set]
    by_cases hT : T = t
    · by_cases hm : T ∈ ts <;> simp [hm, hT]
    · by_cases hm : T ∈ ts <;> simp [hm, hT]

theorem Unsubscribe_topicsOf_get (b : Broker) (s : Ptr) (ts : List String) (T : String) :
    (topicsOf (Unsubscribe b s ts) s).get T =
      if T ∈ ts ∧ b.topics.get T ≠ none then none else (topicsOf b s).get T := by
  induction ts generalizing b with
  | nil => simp [Unsubscribe]
  | cons t ts ih =>
    rw [Unsubscribe_cons, ih, unsubscribeOne_topicsOf_get, unsubscribeOne_get]
    by_cases hT : T = t
    · subst hT
      cases hg : b.topics.get T <;> by_cases hm : T ∈ ts <;> simp [hm]
    · by_cases hm : T ∈ ts <;> simp [hm, hT]

/-! ## Membership after `Subscribe` and `Unsubscribe` -/

theorem isKey_iff (b : Broker) (T id : String) :
    IsKey b T id ↔ ∃ m, b.topics.get T = some m ∧ id ∈ m.keys := by
  unfold IsKey members
  cases h : b.topics.get T with
  | none => simp
  | some m => simp [GoMap.keys]

theorem isKey_Subscribe (b : Broker) (s : Ptr) (ts : List String) (T id : String) :
    IsKey (Subscribe b s ts) T id ↔ (T ∈ ts ∧ id = idOf b s) ∨ IsKey b T id := by
  simp only [isKey_iff, Subscribe_get]
  by_cases hm : T ∈ ts
  · cases hg : b.topics.get T with
    | none => simp [hm, GoMap.mem_keys_set]
    | some m => simp [hm, GoMap.mem_keys_set]
  · simp [hm]

theorem isKey_Unsubscribe (b : Broker) (s : Ptr) (ts : List String) (T id : String) :
    IsKey (Unsubscribe b s ts) T id ↔ IsKey b T id ∧ ¬ (T ∈ ts ∧ id = idOf b s) := by
  simp only [isKey_iff, Unsubscribe_get]
  by_cases hm : T ∈ ts
  · cases hg : b.topics.get T with
    | none => simp [hm]
    | some m =>
      simp only [hm, if_true, Option.map_some', Option.some.injEq, exists_eq_left',
        GoMap.mem_keys_delete, true_and]
      tauto
  · simp [hm]

theorem mem_topicsOf_Subscribe (b : Broker) (s q : Ptr) (ts : List String) (T : String)
    (hs : s < b.heap.length) :
    T ∈ (topicsOf (Subscribe b s ts) q).keys ↔ (q = s ∧ T ∈ ts) ∨ T ∈ (topicsOf b q).keys := by
  by_cases hq : q = s
  · subst hq
    simp only [GoMap.mem_keys, Subscribe_topicsOf_get b q ts T hs]
    by_cases hm : T ∈ ts <;> simp [hm]
  · simp [topicsOf, Subscribe_deref_ne b s q ts hq, hq]

theorem mem_topicsOf_Unsubscribe (b : Broker) (s q : Ptr) (ts : List String) (T : String) :
    T ∈ (topicsOf (Unsubscribe b s ts) q).keys ↔
      T ∈ (topicsOf b q).keys ∧ ¬ (q = s ∧ T ∈ ts ∧ b.topics.get T ≠ none) := by
  by_cases hq : q = s
  · subst hq
    simp only [GoMap.mem_keys, Unsubscribe_topicsOf_get b q ts T]
    by_cases hm : T ∈ ts ∧ b.topics.get T ≠ none
    · simp [hm]
    · simp only [hm, if_false, true_and, not_false_eq_true, and_true]
  · simp [topicsOf, Unsubscribe_deref_ne b s q ts hq, hq]

theorem isKey_entry (b : Broker) (T id : String) (h : IsKey b T id) :
    b.topics.get T ≠ none := by
  rw [isKey_iff] at h
  obtain ⟨m, hm, _⟩ := h
  simp [hm]

/-! ## The operations keep a state consistent -/

theorem Good_NewBroker : Good NewBroker where
  inv := by intro s hs; simp [NewBroker] at hs
  ids := by intro p q hp; simp [NewBroker] at hp
  keyed := by intro T m k p h; simp [NewBroker] at h

theorem Good_Subscribe (b : Broker) (s : Ptr) (ts : List String) (hb : Good b)
    (hs : s < b.heap.length) : Good (Subscribe b s ts) where
  inv := by
    intro q hq T
    rw [Subscribe_length] at hq
    rw [isKey_Subscribe, mem_topicsOf_Subscribe b s q ts T hs, Subscribe_idOf, hb.inv q hq T]
    constructor
    · rintro (⟨h1, h2⟩ | h)
      · exact Or.inl ⟨hb.ids q s hq hs h2, h1⟩
      · exact Or.inr h
    · rintro (⟨h1, h2⟩ | h)
      · exact Or.inl ⟨h2, by rw [h1]⟩
      · exact Or.inr h
  ids := by
    intro p q hp hq h
    simp only [Subscribe_length, Subscribe_idOf] at hp hq h
    exact hb.ids p q hp hq h
  keyed := by
    intro T m k p hm hk
    rw [Subscribe_get] at hm
    rw [Subscribe_length, Subscribe_idOf]
    by_cases hT : T ∈ ts
    · simp only [hT, if_true, Option.some.injEq] at hm
      subst hm
      rw [GoMap.get_set] at hk
      by_cases hkk : k = idOf b s
      · simp only [hkk, if_true, Option.some.injEq] at hk
        subst hk
        exact ⟨hs, hkk.symm⟩
      · simp only [hkk, if_false] at hk
        cases hg : b.topics.get T with
        | none => simp [hg] at hk
        | some m0 =>
          simp only [hg, Option.getD_some] at hk
          exact hb.keyed T m0 k p hg hk
    · simp only [hT, if_false] at hm
      exact hb.keyed T m k p hm hk

theorem Good_Unsubscribe (b : Broker) (s : Ptr) (ts : List String) (hb : Good b)
    (hs : s < b.heap.length) : Good (Unsubscribe b s ts) where
  inv := by
    intro q hq T
    rw [Unsubscribe_length] at hq
    rw [isKey_Unsubscribe, mem_topicsOf_Unsubscribe, Unsubscribe_idOf, ← hb.inv q hq T]
    constructor
    · rintro ⟨h1, h2⟩
      refine ⟨h1, fun h3 => h2 ⟨h3.2.1, by rw [h3.1]⟩⟩
    · rintro ⟨h1, h2⟩
      exact ⟨h1, fun h3 => h2 ⟨hb.ids q s hq hs h3.2, h3.1, isKey_entry b T _ h1⟩⟩
  ids := by
    intro p q hp hq h
    simp only [Unsubscribe_length, Unsubscribe_idOf] at hp hq h
    exact hb.ids p q hp hq h
  keyed := by
    intro T m k p hm hk
    rw [Unsubscribe_get] at hm
    rw [Unsubscribe_length, Unsubscribe_idOf]
    by_cases hT : T ∈ ts
    · simp only [hT, if_true] at hm
      cases hg : b.topics.get T with
      | none => simp [hg] at hm
      | some m0 =>
        simp only [hg, Option.map_some', Option.some.injEq] at hm
        subst hm
        rw [GoMap.get_delete] at hk
        by_cases hkk : k = idOf b s
        · simp [hkk] at hk
        · simp only [hkk, if_false] at hk
          exact hb.keyed T m0 k p hg hk
    · simp only [hT, if_false] at hm
      exact hb.keyed T m k p hm hk

/-! ## `destroy`, `Detach` and `Attach` -/

theorem deref_destroy_self (h : List Subscriber) (p : Ptr) (hp : p < h.length) :
    deref (destroy h p) p = { deref h p with destroyed := true } := by
  simp [deref, destroy, List.getD_eq_getElem?_getD, List.getElem?_set, hp]

theorem deref_destroy_ne (h : List Subscriber) (p q : Ptr) (hq : q ≠ p) :
    deref (destroy h p) q = deref h q := by
  simp [deref, destroy, List.getD_eq_getElem?_getD, List.getElem?_set, Ne.symm hq]

@[simp] theorem length_destroy (h : List Subscriber) (p : Ptr) :
    (destroy h p).length = h.length := by
  simp [destroy]

theorem deref_destroy (h : List Subscriber) (p q : Ptr) :
    (deref (destroy h p) q).id = (deref h q).id ∧
      (deref (destroy h p) q).topics = (deref h q).topics := by
  by_cases hq : q = p
  · subst hq
    by_cases hp : q < h.length
    · rw [deref_destroy_self h q hp]; exact ⟨rfl, rfl⟩
    · simp [destroy, List.set_eq_of_length_le (Nat.le_of_not_lt hp)]
  · rw [deref_destroy_ne h p q hq]; exact ⟨rfl, rfl⟩

@[simp] theorem destroyIn_idOf (b : Broker) (s q : Ptr) : idOf (destroyIn b s) q = idOf b q :=
  (deref_destroy b.heap s q).1

@[simp] theorem destroyIn_topicsOf (b : Broker) (s q : Ptr) :
    topicsOf (destroyIn b s) q = topicsOf b q :=
  (deref_destroy b.heap s q).2

@[simp] theorem destroyIn_length (b : Broker) (s : Ptr) :
    (destroyIn b s).heap.length = b.heap.length := length_destroy b.heap s

@[simp] theorem destroyIn_topics (b : Broker) (s : Ptr) : (destroyIn b s).topics = b.topics := rfl

@[simp] theorem destroyIn_subscribers (b : Broker) (s : Ptr) :
    (destroyIn b s).subscribers = b.subscribers := rfl

theorem isKey_congr (b b' : Broker) (h : b'.topics = b.topics) (T id : String) :
    IsKey b' T id ↔ IsKey b T id := by
  simp only [isKey_iff, h]

theorem Good_destroyIn (b : Broker) (s : Ptr) (hb : Good b) : Good (destroyIn b s) where
  inv := by
    intro q hq T
    rw [destroyIn_length] at hq
    rw [isKey_congr b (destroyIn b s) rfl, destroyIn_idOf, destroyIn_topicsOf]
    exact hb.inv q hq T
  ids := by
    intro p q hp hq h
    simp only [destroyIn_length, destroyIn_idOf] at hp hq h
    exact hb.ids p q hp hq h
  keyed := by
    intro T m k p hm hk
    rw [destroyIn_length, destroyIn_idOf]
    exact hb.keyed T m k p hm hk

theorem Detach_eq (b : Broker) (s : Ptr) :
    Detach b s =
      { Unsubscribe (destroyIn b s) s (topicsOf b s).keys with
        subscribers := b.subscribers.delete (idOf b s) } := by
  have h1 : (deref (destroyIn b s).heap s).GetTopics = (topicsOf b s).keys := by
    rw [← destroyIn_topicsOf b s s]; rfl
  have h2 : (deref (Unsubscribe (destroyIn b s) s (topicsOf b s).keys).heap s).id = idOf b s := by
    have := Unsubscribe_idOf (destroyIn b s) s s (topicsOf b s).keys
    rw [destroyIn_idOf] at this
    exact this
  unfold Detach
  simp only [h1, h2, Unsubscribe_subscribers, destroyIn_subscribers]

theorem Detach_topics (b : Broker) (s : Ptr) :
    (Detach b s).topics = (Unsubscribe (destroyIn b s) s (topicsOf b s).keys).topics := by
  rw [Detach_eq]

theorem Detach_heap (b : Broker) (s : Ptr) :
    (Detach b s).heap = (Unsubscribe (destroyIn b s) s (topicsOf b s).keys).heap := by
  rw [Detach_eq]

theorem Detach_subscribers (b : Broker) (s : Ptr) :
    (Detach b s).subscribers = b.subscribers.delete (idOf b s) := by
  rw [Detach_eq]

theorem Good_congr (b b' : Broker) (ht : b'.topics = b.topics) (hh : b'.heap = b.heap)
    (hb : Good b) : Good b' where
  inv := by
    intro q hq T
    rw [hh] at hq
    rw [isKey_congr b b' ht]
    simpa [idOf, topicsOf, hh] using hb.inv q hq T
  ids := by
    intro p q hp hq h
    simp only [idOf, hh] at hp hq h
    exact hb.ids p q hp hq h
  keyed := by
    intro T m k p hm hk
    rw [ht] at hm
    simpa [idOf, hh] using hb.keyed T m k p hm hk

theorem Good_Detach (b : Broker) (s : Ptr) (hb : Good b) (hs : s < b.heap.length) :
    Good (Detach b s) :=
  Good_congr _ _ (Detach_topics b s) (Detach_heap b s)
    (Good_Unsubscribe _ s _ (Good_destroyIn b s hb) (by simpa using hs))

/-- State after a successful `Attach` that drew the bytes `r` at time `now`. -/
theorem Attach_ok (b : Broker) (r : List Byte) (now : Int) :
    Attach b (.ok r) now = .ok (b.heap.length,
      { b with
        heap := b.heap ++ [⟨hexEncode r, now, false, GoMap.empty⟩]
        subscribers := b.subscribers.set (hexEncode r) b.heap.length }) := rfl

theorem deref_append_old (h : List Subscriber) (x : Subscriber) (q : Ptr) (hq : q < h.length) :
    deref (h ++ [x]) q = deref h q := by
  simp [deref, List.getD_eq_getElem?_getD, List.getElem?_append_left hq]

theorem deref_append_new (h : List Subscriber) (x : Subscriber) :
    deref (h ++ [x]) h.length = x := by
  simp [deref, List.getD_eq_getElem?_getD]

theorem mem_ids_of_valid (b : Broker) (p : Ptr) (hp : p < b.heap.length) :
    idOf b p ∈ b.heap.map Subscriber.id := by
  have : deref b.heap p = b.heap[p] := by
    simp [deref, List.getD_eq_getElem?_getD, List.getElem?_eq_getElem hp]
  rw [idOf, this]
  exact List.mem_map_of_mem _ (List.getElem_mem hp)

theorem Good_Attach (b : Broker) (r : List Byte) (now : Int) (hb : Good b)
    (hfresh : hexEncode r ∉ b.heap.map Subscriber.id) :
    Good { b with
      heap := b.heap ++ [⟨hexEncode r, now, false, GoMap.empty⟩]
      subscribers := b.subscribers.set (hexEncode r) b.heap.length } where
  inv := by
    intro q hq T
    simp only [List.length_append, List.length_singleton] at hq
    change IsKey b T _ ↔ _
    by_cases hlt : q < b.heap.length
    · simp only [idOf, topicsOf, deref_append_old _ _ _ hlt]
      exact hb.inv q hlt T
    · have hq' : q = b.heap.length := by omega
      subst hq'
      simp only [idOf, topicsOf, deref_append_new, GoMap.keys_empty, List.not_mem_nil,
        iff_false]
      intro hk
      rw [isKey_iff] at hk
      obtain ⟨m, hm, hkm⟩ := hk
      obtain ⟨p, hp⟩ := (GoMap.mem_keys m _).1 hkm
      obtain ⟨hp1, hp2⟩ := hb.keyed T m _ p hm hp
      exact hfresh (hp2 ▸ mem_ids_of_valid b p hp1)
  ids := by
    intro p q hp hq h
    simp only [List.length_append, List.length_singleton] at hp hq
    by_cases hp' : p < b.heap.length <;> by_cases hq' : q < b.heap.length
    · simp only [idOf, deref_append_old _ _ _ hp', deref_append_old _ _ _ hq'] at h
      exact hb.ids p q hp' hq' h
    · have : q = b.heap.length := by omega
      subst this
      simp only [idOf, deref_append_old _ _ _ hp', deref_append_new] at h
      exact absurd (h ▸ mem_ids_of_valid b p hp') hfresh
    · have : p = b.heap.length := by omega
      subst this
      simp only [idOf, deref_append_old _ _ _ hq', deref_append_new] at h
      exact absurd (h ▸ mem_ids_of_valid b q hq') hfresh
    · omega
  keyed := by
    intro T m k p hm hk
    obtain ⟨h1, h2⟩ := hb.keyed T m k p hm hk
    refine ⟨?_, ?_⟩
    · show p < (b.heap ++ [_]).length
      rw [List.length_append]
      exact Nat.lt_add_right _ h1
    · simpa only [idOf, deref_append_old _ _ _ h1] using h2

theorem Good_apply (b : Broker) (op : Op) (hb : Good b) (hl : op.Legal b) :
    Good (op.apply b) := by
  cases op with
  | attach rnd now =>
    cases rnd with
    | error e => exact hb
    | ok r => exact Good_Attach b r now hb hl
  | subscribe s ts => exact Good_Subscribe b s ts hb hl
  | unsubscribe s ts => exact Good_Unsubscribe b s ts hb hl
  | detach s => exact Good_Detach b s hb hl

theorem Good_run (ops : List Op) (b : Broker) (hb : Good b) (hl : LegalTrace b ops) :
    Good (run b ops) := by
  induction ops generalizing b with
  | nil => exact hb
  | cons op rest ih => exact ih (op.apply b) (Good_apply b op hb hl.1) hl.2

theorem Good_of_Reachable (b : Broker) (h : Reachable b) : Good b := by
  obtain ⟨ops, hl, rfl⟩ := h
  exact Good_run ops NewBroker Good_NewBroker hl

/-! ## `Broadcast` -/

theorem Subscribers_eq_length (b : Broker) (T : String) :
    Subscribers b T = (members b T).length := by
  unfold Subscribers members
  cases b.topics.get T <;> rfl

theorem members_nodup (b : Broker) (T : String) : ((members b T).map Prod.fst).Nodup := by
  unfold members
  cases b.topics.get T with
  | none => exact List.nodup_nil
  | some m => exact m.nodup

theorem mem_members (b : Broker) (T k : String) (p : Ptr) :
    (k, p) ∈ members b T ↔ ∃ m, b.topics.get T = some m ∧ m.get k = some p := by
  unfold members
  cases b.topics.get T with
  | none => simp
  | some m => simp [GoMap.get_eq_some]

theorem dispatch_targets {P : Type} (clock : Nat → Int) (p : P) (T : String) (n : Nat)
    (l : List (String × Ptr)) :
    (dispatch clock p T n l).map Delivery.target = l.map Prod.snd := by
  induction l generalizing n with
  | nil => rfl
  | cons e r ih => obtain ⟨k, s⟩ := e; simp [dispatch, ih]

theorem dispatch_msg {P : Type} (clock : Nat → Int) (p : P) (T : String) (n : Nat)
    (l : List (String × Ptr)) :
    ∀ d ∈ dispatch clock p T n l, d.msg.topic = T ∧ d.msg.payload = p := by
  induction l generalizing n with
  | nil => simp [dispatch]
  | cons e r ih =>
    obtain ⟨k, s⟩ := e
    intro d hd
    simp only [dispatch, List.mem_cons] at hd
    rcases hd with rfl | hd
    · exact ⟨rfl, rfl⟩
    · exact ih _ d hd

theorem broadcastFrom_cons {P : Type} (b : Broker) (clock : Nat → Int) (p : P) (n : Nat)
    (T : String) (rest : List String) :
    broadcastFrom b clock p n (T :: rest) =
      dispatch clock p T n (members b T) ++
        broadcastFrom b clock p (n + (members b T).length) rest := by
  rw [broadcastFrom]
  split
  · rename_i h
    have h0 : members b T = [] := by
      rw [Subscribers_eq_length] at h
      exact List.length_eq_zero.1 (by omega)
    simp [h0, dispatch]
  · rfl

theorem Broadcast_one {P : Type} (b : Broker) (clock : Nat → Int) (p : P) (T : String) :
    Broadcast b clock p [T] = dispatch clock p T 0 (members b T) := by
  rw [Broadcast, broadcastFrom_cons]
  simp [broadcastFrom]

theorem count_values_of_keyed (b : Broker) (hb : Good b) (T : String) (s : Ptr)
    (hs : s < b.heap.length) :
    ((members b T).map Prod.snd).count s = if IsKey b T (idOf b s) then 1 else 0 := by
  have hkey : ∀ e ∈ members b T, (e.2 = s ↔ e.1 = idOf b s) := by
    intro e he
    obtain ⟨k, q⟩ := e
    obtain ⟨m, hm, hk⟩ := (mem_members b T k q).1 he
    obtain ⟨hq, hid⟩ := hb.keyed T m k q hm hk
    constructor
    · intro h; simp only at h; subst h; exact hid.symm
    · intro h; simp only at h; exact hb.ids q s hq hs (hid.trans h)
  have h1 : ((members b T).map Prod.snd).count s =
      ((members b T).map Prod.fst).count (idOf b s) := by
    rw [List.count_eq_countP, List.count_eq_countP, List.countP_map, List.countP_map]
    apply List.countP_congr
    intro e he
    simpa using hkey e he
  rw [h1, List.count_eq_of_nodup (members_nodup b T)]
  rfl

theorem Reachable_scenario : Reachable scenario := ⟨scenarioOps, by decide, rfl⟩

/-! ## C1 -/

/-- C1: `Broadcast(p, T)` dispatches exactly `Subscribers(T)` delivery attempts, one
per entry of `b.topics[T]` and addressed to that entry's subscriber, each carrying
topic `T` and payload `p`; in a consistent state (every reachable state is one,
`Good_of_Reachable`) a subscriber receives exactly one attempt when its id is a key
of `b.topics[T]` and none otherwise. -/
theorem Broadcast_delivers {P : Type} (b : Broker) (clock : Nat → Int) (p : P) (T : String) :
    (Broadcast b clock p [T]).length = Subscribers b T ∧
    (Broadcast b clock p [T]).map Delivery.target = (members b T).map Prod.snd ∧
    (∀ d ∈ Broadcast b clock p [T], d.msg.topic = T ∧ d.msg.payload = p) ∧
    (Good b → ∀ s, s < b.heap.length →
      ((Broadcast b clock p [T]).map Delivery.target).count s =
        if IsKey b T (idOf b s) then 1 else 0) := by
  have ht := dispatch_targets clock p T 0 (members b T)
  rw [← Broadcast_one b clock p T] at ht
  refine ⟨?_, ht, ?_, ?_⟩
  · have := congrArg List.length ht
    simpa [Subscribers_eq_length] using this
  · rw [Broadcast_one]; exact dispatch_msg clock p T 0 (members b T)
  · intro hb s hs
    rw [ht]
    exact count_values_of_keyed b hb T s hs

/-- C1, the scenario of the spec: after Attach s1, s2; Subscribe(s1, "news");
Subscribe(s2, "news", "sports"), `Broadcast("hello", "news")` targets s1 and s2 once
each with {news, hello}, and `Broadcast("x", "sports")` targets only s2 with
{sports, x}. -/
theorem Broadcast_delivers_scenario :
    (Attach NewBroker (.ok rnd1) 1000).map Prod.fst = .ok 0 ∧
    (Attach (run NewBroker (scenarioOps.take 1)) (.ok rnd2) 2000).map Prod.fst = .ok 1 ∧
    (∀ clock : Nat → Int, Broadcast scenario clock "hello" ["news"] =
      [⟨0, ⟨"news", "hello", clock 0⟩⟩, ⟨1, ⟨"news", "hello", clock 1⟩⟩]) ∧
    (∀ clock : Nat → Int, Broadcast scenario clock "x" ["sports"] =
      [⟨1, ⟨"sports", "x", clock 0⟩⟩]) ∧
    ((Broadcast scenario (fun _ => 0) "hello" ["news"]).map Delivery.target).count 0 = 1 ∧
    ((Broadcast scenario (fun _ => 0) "hello" ["news"]).map Delivery.target).count 1 = 1 ∧
    ((Broadcast scenario (fun _ => 0) "x" ["sports"]).map Delivery.target).count 0 = 0 ∧
    ((Broadcast scenario (fun _ => 0) "x" ["sports"]).map Delivery.target).count 1 = 1 :=
  ⟨rfl, rfl, fun _ => rfl, fun _ => rfl,
    (Broadcast_delivers scenario (fun _ => 0) "hello" "news").2.2.2
      (Good_of_Reachable _ Reachable_scenario) 0 (by decide),
    (Broadcast_delivers scenario (fun _ => 0) "hello" "news").2.2.2
      (Good_of_Reachable _ Reachable_scenario) 1 (by decide),
    (Broadcast_delivers scenario (fun _ => 0) "x" "sports").2.2.2
      (Good_of_Reachable _ Reachable_scenario) 0 (by decide),
    (Broadcast_delivers scenario (fun _ => 0) "x" "sports").2.2.2
      (Good_of_Reachable _ Reachable_scenario) 1 (by decide)⟩

/-! ## C2 -/

/-- C2: in every state reachable from `NewBroker()` by Attach, Subscribe,
Unsubscribe and Detach calls on subscribers returned by Attach, the ids drawn being
pairwise distinct, `s.id` is a key of `b.topics[T]` iff `T` is a key of `s.topics`,
for every subscriber `s` and topic `T`. -/
theorem membership_invariant (b : Broker) (hb : Reachable b) (s : Ptr)
    (hs : s < b.heap.length) (T : String) :
    IsKey b T (idOf b s) ↔ T ∈ (topicsOf b s).keys :=
  (Good_of_Reachable b hb).inv s hs T

theorem membership_invariant_witness :
    Reachable scenario ∧ (1 : Ptr) < scenario.heap.length ∧
      (IsKey scenario "sports" (idOf scenario 1) ↔ "sports" ∈ (topicsOf scenario 1).keys) ∧
      "sports" ∈ (topicsOf scenario 1).keys :=
  ⟨Reachable_scenario, by decide,
    membership_invariant scenario Reachable_scenario 1 (by decide) "sports", by decide⟩

/-! ## C3 -/

/-- C3: after `Subscribe(s, ts...)` every topic `T` of `ts` has an entry in
`b.topics`, that entry maps `s.id` to `s`, and `T` is in `s.topics`; the entry is
the previous one (the empty set if there was none) with `s.id ↦ s` written into it,
so every other member of `T` is kept. -/
theorem Subscribe_post (b : Broker) (s : Ptr) (ts : List String) (hs : s < b.heap.length)
    (T : String) (hT : T ∈ ts) :
    ∃ m, (Subscribe b s ts).topics.get T = some m ∧
      m.get (idOf (Subscribe b s ts) s) = some s ∧
      (topicsOf (Subscribe b s ts) s).get T = some true ∧
      T ∈ (topicsOf (Subscribe b s ts) s).keys ∧
      m = ((b.topics.get T).getD GoMap.empty).set (idOf b s) s ∧
      (∀ m0, b.topics.get T = some m0 → ∀ k, k ≠ idOf b s → m.get k = m0.get k) := by
  have hget := Subscribe_get b s ts T
  rw [if_pos hT] at hget
  have htop := Subscribe_topicsOf_get b s ts T hs
  rw [if_pos hT] at htop
  refine ⟨_, hget, ?_, htop, ?_, rfl, ?_⟩
  · simp [GoMap.get_set]
  · exact (GoMap.mem_keys _ _).2 ⟨true, htop⟩
  · intro m0 hm0 k hk
    simp [hm0, GoMap.get_set, hk]

theorem Subscribe_post_witness :
    ∃ m, (Subscribe scenario 0 ["sports", "news"]).topics.get "sports" = some m ∧
      m.get (idOf (Subscribe scenario 0 ["sports", "news"]) 0) = some 0 ∧
      (topicsOf (Subscribe scenario 0 ["sports", "news"]) 0).get "sports" = some true ∧
      "sports" ∈ (topicsOf (Subscribe scenario 0 ["sports", "news"]) 0).keys ∧
      m = ((scenario.topics.get "sports").getD GoMap.empty).set (idOf scenario 0) 0 ∧
      (∀ m0, scenario.topics.get "sports" = some m0 →
        ∀ k, k ≠ idOf scenario 0 → m.get k = m0.get k) :=
  Subscribe_post scenario 0 ["sports", "news"] (by decide) "sports" (by decide)

/-! ## C4 -/

/-- C4: in a state satisfying the topic-membership invariant, after
`Unsubscribe(s, ts...)` no topic `T` of `ts` has `s.id` as a key of `b.topics[T]`
and no topic of `ts` is a key of `s.topics`. -/
theorem Unsubscribe_post (b : Broker) (hinv : MembershipInv b) (s : Ptr) (ts : List String)
    (T : String) (hT : T ∈ ts) :
    ¬ IsKey (Unsubscribe b s ts) T (idOf (Unsubscribe b s ts) s) ∧
      T ∉ (topicsOf (Unsubscribe b s ts) s).keys := by
  constructor
  · rw [isKey_Unsubscribe, Unsubscribe_idOf]
    exact fun h => h.2 ⟨hT, rfl⟩
  · rw [mem_topicsOf_Unsubscribe]
    rintro ⟨h1, h2⟩
    by_cases hs : s < b.heap.length
    · exact h2 ⟨rfl, hT, isKey_entry b T _ ((hinv s hs T).2 h1)⟩
    · simp [topicsOf, deref_zero_of_invalid _ _ hs, Subscriber.zero] at h1

theorem MembershipInv_scenario : MembershipInv scenario :=
  (Good_of_Reachable _ Reachable_scenario).inv

theorem Unsubscribe_post_witness :
    MembershipInv scenario ∧
      IsKey scenario "news" (idOf scenario 1) ∧
      ¬ IsKey (Unsubscribe scenario 1 ["news", "weather"]) "news"
          (idOf (Unsubscribe scenario 1 ["news", "weather"]) 1) ∧
      "news" ∉ (topicsOf (Unsubscribe scenario 1 ["news", "weather"]) 1).keys :=
  ⟨MembershipInv_scenario, by decide,
    Unsubscribe_post scenario MembershipInv_scenario 1 ["news", "weather"] "news" (by decide)⟩

/-! ## C5 -/

theorem Detach_not_key (b : Broker) (hinv : MembershipInv b) (s : Ptr)
    (hs : s < b.heap.length) (T : String) : ¬ IsKey (Detach b s) T (idOf b s) := by
  rw [isKey_congr _ _ (Detach_topics b s), isKey_Unsubscribe, destroyIn_idOf,
    isKey_congr b (destroyIn b s) rfl]
  rintro ⟨h1, h2⟩
  exact h2 ⟨(hinv s hs T).1 h1, rfl⟩

theorem Detach_topicsOf (b : Broker) (hinv : MembershipInv b) (s : Ptr) :
    (topicsOf (Detach b s) s).entries = [] := by
  apply GoMap.keys_eq_nil_of_forall
  intro T hT
  have : topicsOf (Detach b s) s =
      topicsOf (Unsubscribe (destroyIn b s) s (topicsOf b s).keys) s := by
    simp only [topicsOf, Detach_heap]
  rw [this, mem_topicsOf_Unsubscribe, destroyIn_topicsOf] at hT
  obtain ⟨h1, h2⟩ := hT
  by_cases hs : s < b.heap.length
  · exact h2 ⟨rfl, h1, isKey_entry b T _ ((hinv s hs T).2 h1)⟩
  · simp [topicsOf, deref_zero_of_invalid _ _ hs, Subscriber.zero] at h1

theorem Detach_idOf (b : Broker) (s q : Ptr) : idOf (Detach b s) q = idOf b q := by
  have : idOf (Detach b s) q = idOf (Unsubscribe (destroyIn b s) s (topicsOf b s).keys) q := by
    simp only [idOf, Detach_heap]
  rw [this, Unsubscribe_idOf, destroyIn_idOf]

theorem Detach_length (b : Broker) (s : Ptr) : (Detach b s).heap.length = b.heap.length := by
  rw [Detach_heap, Unsubscribe_length, destroyIn_length]

theorem Detach_destroyed (b : Broker) (s : Ptr) (hs : s < b.heap.length) :
    (deref (Detach b s).heap s).destroyed = true := by
  rw [Detach_heap, Unsubscribe_destroyed]
  show (deref (destroy b.heap s) s).destroyed = true
  rw [deref_destroy_self _ _ hs]

/-- C5: in a state satisfying the topic-membership invariant, after `Detach(s)` the
subscriber is marked destroyed, `s.topics` is empty, `s.id` is a key of no topic's
subscriber set, and `s.id` is not a key of `b.subscribers`. -/
theorem Detach_post (b : Broker) (hinv : MembershipInv b) (s : Ptr)
    (hs : s < b.heap.length) :
    (deref (Detach b s).heap s).destroyed = true ∧
      (topicsOf (Detach b s) s).entries = [] ∧
      (∀ T, ¬ IsKey (Detach b s) T (idOf (Detach b s) s)) ∧
      idOf (Detach b s) s ∉ (Detach b s).subscribers.keys := by
  refine ⟨Detach_destroyed b s hs, Detach_topicsOf b hinv s, ?_, ?_⟩
  · intro T
    rw [Detach_idOf]
    exact Detach_not_key b hinv s hs T
  · rw [Detach_idOf, Detach_subscribers, GoMap.mem_keys_delete]
    exact fun h => h.1 rfl

theorem Detach_post_witness :
    MembershipInv scenario ∧ (1 : Ptr) < scenario.heap.length ∧
      (topicsOf scenario 1).keys = ["news", "sports"] ∧
      idOf scenario 1 ∈ scenario.subscribers.keys ∧
      (deref (Detach scenario 1).heap 1).destroyed = true ∧
      (topicsOf (Detach scenario 1) 1).entries = [] ∧
      (∀ T, ¬ IsKey (Detach scenario 1) T (idOf (Detach scenario 1) 1)) ∧
      idOf (Detach scenario 1) 1 ∉ (Detach scenario 1).subscribers.keys :=
  ⟨MembershipInv_scenario, by decide, by decide, by decide,
    Detach_post scenario MembershipInv_scenario 1 (by decide)⟩

/-! ## C6 -/

theorem NotStored_congr (b b' : Broker) (s : Ptr) (h : b'.topics = b.topics)
    (hb : NotStored b s) : NotStored b' s := by
  intro T m k hm
  rw [h] at hm
  exact hb T m k hm

theorem NotStored_Subscribe (b : Broker) (s q : Ptr) (ts : List String) (hq : q ≠ s)
    (hb : NotStored b s) : NotStored (Subscribe b q ts) s := by
  intro T m k hm hk
  rw [Subscribe_get] at hm
  by_cases hT : T ∈ ts
  · simp only [hT, if_true, Option.some.injEq] at hm
    subst hm
    rw [GoMap.get_set] at hk
    by_cases hkk : k = idOf b q
    · simp only [hkk, if_true, Option.some.injEq] at hk
      exact hq hk
    · simp only [hkk, if_false] at hk
      cases hg : b.topics.get T with
      | none => simp [hg] at hk
      | some m0 =>
        simp only [hg, Option.getD_some] at hk
        exact hb T m0 k hg hk
  · simp only [hT, if_false] at hm
    exact hb T m k hm hk

theorem NotStored_Unsubscribe (b : Broker) (s q : Ptr) (ts : List String)
    (hb : NotStored b s) : NotStored (Unsubscribe b q ts) s := by
  intro T m k hm hk
  rw [Unsubscribe_get] at hm
  by_cases hT : T ∈ ts
  · simp only [hT, if_true] at hm
    cases hg : b.topics.get T with
    | none => simp [hg] at hm
    | some m0 =>
      simp only [hg, Option.map_some', Option.some.injEq] at hm
      subst hm
      rw [GoMap.get_delete] at hk
      by_cases hkk : k = idOf b q
      · simp [hkk] at hk
      · simp only [hkk, if_false] at hk
        exact hb T m0 k hg hk
  · simp only [hT, if_false] at hm
    exact hb T m k hm hk

theorem NotStored_Detach (b : Broker) (s q : Ptr) (hb : NotStored b s) :
    NotStored (Detach b q) s :=
  NotStored_congr _ _ s (Detach_topics b q)
    (NotStored_Unsubscribe _ s q _ (NotStored_congr b (destroyIn b q) s rfl hb))

theorem NotStored_apply (b : Broker) (s : Ptr) (op : Op) (hop : op.isSubscribeOf s = false)
    (hb : NotStored b s) : NotStored (op.apply b) s := by
  cases op with
  | attach rnd now =>
    cases rnd with
    | error e => exact hb
    | ok r => exact NotStored_congr b _ s rfl hb
  | subscribe q ts =>
    have hq : q ≠ s := by simpa [Op.isSubscribeOf] using hop
    exact NotStored_Subscribe b s q ts hq hb
  | unsubscribe q ts => exact NotStored_Unsubscribe b s q ts hb
  | detach q => exact NotStored_Detach b s q hb

theorem NotStored_run (ops : List Op) (b : Broker) (s : Ptr)
    (hops : ∀ op ∈ ops, op.isSubscribeOf s = false) (hb : NotStored b s) :
    NotStored (run b ops) s := by
  induction ops generalizing b with
  | nil => exact hb
  | cons op rest ih =>
    exact ih (op.apply b) (fun o ho => hops o (List.mem_cons_of_mem _ ho))
      (NotStored_apply b s op (hops op (List.mem_cons_self _ _)) hb)

theorem NotStored_after_Detach (b : Broker) (hb : Good b) (s : Ptr) (hs : s < b.heap.length) :
    NotStored (Detach b s) s := by
  intro T m k hm hk
  obtain ⟨_, hid⟩ := (Good_Detach b s hb hs).keyed T m k s hm hk
  rw [Detach_idOf] at hid
  refine Detach_not_key b hb.inv s hs T ?_
  rw [isKey_iff]
  exact ⟨m, hm, (GoMap.mem_keys m _).2 ⟨s, hid ▸ hk⟩⟩

theorem mem_dispatch {P : Type} (clock : Nat → Int) (p : P) (T : String) (n : Nat)
    (l : List (String × Ptr)) (d : Delivery P) (hd : d ∈ dispatch clock p T n l) :
    d.target ∈ l.map Prod.snd := by
  rw [← dispatch_targets clock p T n l]
  exact List.mem_map_of_mem _ hd

theorem mem_broadcastFrom {P : Type} (b : Broker) (clock : Nat → Int) (p : P)
    (ts : List String) (n : Nat) (d : Delivery P) (hd : d ∈ broadcastFrom b clock p n ts) :
    ∃ T ∈ ts, d.target ∈ (members b T).map Prod.snd := by
  induction ts generalizing n with
  | nil => simp [broadcastFrom] at hd
  | cons T rest ih =>
    rw [broadcastFrom_cons, List.mem_append] at hd
    rcases hd with hd | hd
    · exact ⟨T, List.mem_cons_self _ _, mem_dispatch clock p T n _ d hd⟩
    · obtain ⟨T', hT', h⟩ := ih _ hd
      exact ⟨T', List.mem_cons_of_mem _ hT', h⟩

theorem not_target_of_NotStored {P : Type} (b : Broker) (s : Ptr) (hb : NotStored b s)
    (clock : Nat → Int) (p : P) (ts : List String) :
    ∀ d ∈ Broadcast b clock p ts, d.target ≠ s := by
  intro d hd hds
  obtain ⟨T, _, h⟩ := mem_broadcastFrom b clock p ts 0 d hd
  rw [List.mem_map] at h
  obtain ⟨⟨k, q⟩, hmem, hq⟩ := h
  obtain ⟨m, hm, hk⟩ := (mem_members b T k q).1 hmem
  simp only at hq
  rw [hq, hds] at hk
  exact hb T m k hm hk

/-- C6: from a reachable state, once `Detach(s)` has run, and whatever calls other
than `Subscribe(s, ...)` follow it, no `Broadcast` dispatches a delivery attempt to
`s`, whatever its payload and topics. -/
theorem no_delivery_after_Detach {P : Type} (b : Broker) (hb : Reachable b) (s : Ptr)
    (hs : s < b.heap.length) (ops : List Op)
    (hops : ∀ op ∈ ops, op.isSubscribeOf s = false)
    (clock : Nat → Int) (p : P) (ts : List String) :
    ∀ d ∈ Broadcast (run (Detach b s) ops) clock p ts, d.target ≠ s :=
  not_target_of_NotStored _ s
    (NotStored_run ops _ s hops (NotStored_after_Detach b (Good_of_Reachable b hb) s hs))
    clock p ts

theorem no_delivery_after_Detach_witness :
    Reachable scenario ∧ (1 : Ptr) < scenario.heap.length ∧
      (∀ op ∈ laterOps, op.isSubscribeOf 1 = false) ∧
      (1 : Ptr) ∈ (Broadcast scenario (fun _ => 0) "x" ["news", "sports"]).map Delivery.target ∧
      (Broadcast (run (Detach scenario 1) laterOps) (fun _ => 0) "x" ["news", "sports"]).length = 2 ∧
      ∀ d ∈ Broadcast (run (Detach scenario 1) laterOps) (fun _ => 0) "x" ["news", "sports"],
        d.target ≠ 1 :=
  ⟨Reachable_scenario, by decide, by decide, by decide, by decide,
    no_delivery_after_Detach scenario Reachable_scenario 1 (by decide) laterOps (by decide)
      (fun _ => 0) "x" ["news", "sports"]⟩

theorem Broker.ext3 (b b' : Broker) (h1 : b.subscribers = b'.subscribers)
    (h2 : b.topics = b'.topics) (h3 : b.heap = b'.heap) : b = b' := by
  cases b; cases b'; simp only at h1 h2 h3; subst h1 h2 h3; rfl

/-! ## C7 -/

theorem subscribeOne_eq_self (b : Broker) (s : Ptr) (t : String) (m : GoMap Ptr)
    (h1 : b.topics.get t = some m) (h2 : m.get (idOf b s) = some s)
    (h3 : s < b.heap.length → (topicsOf b s).get t = some true) :
    subscribeOne s b t = b := by
  apply Broker.ext3
  · rfl
  · have e : (subscribeOne s b t).topics = b.topics.set t (m.set (idOf b s) s) := by
      simp [subscribeOne, h1, idOf]
    rw [e, GoMap.set_eq_self m _ s h2, GoMap.set_eq_self b.topics t m h1]
  · rw [subscribeOne_heap]
    exact setTopics_eq_self _ _ _ (fun hs => (GoMap.set_eq_self _ t true (h3 hs)).symm)

theorem subscribeOne_Subscribe (b : Broker) (s : Ptr) (ts : List String) (T : String)
    (hT : T ∈ ts) : subscribeOne s (Subscribe b s ts) T = Subscribe b s ts := by
  have hget := Subscribe_get b s ts T
  rw [if_pos hT] at hget
  refine subscribeOne_eq_self _ s T _ hget ?_ ?_
  · simp [GoMap.get_set]
  · intro hs
    rw [Subscribe_length] at hs
    rw [Subscribe_topicsOf_get b s ts T hs, if_pos hT]

theorem Subscribe_again (b : Broker) (s : Ptr) (ts ts' : List String)
    (h : ∀ T ∈ ts', T ∈ ts) : Subscribe (Subscribe b s ts) s ts' = Subscribe b s ts := by
  induction ts' with
  | nil => rfl
  | cons t rest ih =>
    rw [Subscribe_cons, subscribeOne_Subscribe b s ts t (h t (List.mem_cons_self _ _))]
    exact ih (fun T hT => h T (List.mem_cons_of_mem _ hT))

theorem Subscribe_append (b : Broker) (s : Ptr) (ts ts' : List String) :
    Subscribe b s (ts ++ ts') = Subscribe (Subscribe b s ts) s ts' := by
  simp [Subscribe, List.foldl_append]

/-- C7: `Subscribe(s, ts...)` run twice leaves the same state (`b.topics`,
`b.subscribers`, every `s.topics`) as run once, so `Subscribers(T)` is the same for
every `T`; and a topic named again later in one list has no further effect. -/
theorem Subscribe_idempotent (b : Broker) (s : Ptr) (ts : List String) :
    Subscribe (Subscribe b s ts) s ts = Subscribe b s ts ∧
    (∀ T, Subscribers (Subscribe (Subscribe b s ts) s ts) T =
      Subscribers (Subscribe b s ts) T) ∧
    (∀ T rest, T ∈ ts → Subscribe b s (ts ++ T :: rest) = Subscribe b s (ts ++ rest)) := by
  have h := Subscribe_again b s ts ts (fun _ h => h)
  refine ⟨h, fun T => by rw [h], ?_⟩
  intro T rest hT
  rw [Subscribe_append, Subscribe_cons, subscribeOne_Subscribe b s ts T hT,
    ← Subscribe_append]

/-! ## C8 -/

theorem unsubscribeOne_eq_self (b : Broker) (s : Ptr) (t : String)
    (h1 : ¬ IsKey b t (idOf b s)) (h2 : t ∉ (topicsOf b s).keys) :
    unsubscribeOne s b t = b := by
  cases hg : b.topics.get t with
  | none => simp [unsubscribeOne, hg]
  | some m =>
    have hk : idOf b s ∉ m.keys := fun hk => h1 ((isKey_iff b t _).2 ⟨m, hg, hk⟩)
    apply Broker.ext3
    · rw [unsubscribeOne_subscribers]
    · simp only [unsubscribeOne, hg]
      show b.topics.set t (m.delete (idOf b s)) = b.topics
      rw [GoMap.delete_eq_self m _ hk, GoMap.set_eq_self b.topics t m hg]
    · rw [unsubscribeOne_heap]
      simp only [hg, if_false]
      exact setTopics_eq_self _ _ _ (fun _ => (GoMap.delete_eq_self _ t h2).symm)

theorem Unsubscribe_eq_self (b : Broker) (s : Ptr) (ts : List String)
    (h1 : ∀ T ∈ ts, ¬ IsKey b T (idOf b s)) (h2 : ∀ T ∈ ts, T ∉ (topicsOf b s).keys) :
    Unsubscribe b s ts = b := by
  induction ts with
  | nil => rfl
  | cons t rest ih =>
    rw [Unsubscribe_cons,
      unsubscribeOne_eq_self b s t (h1 t (List.mem_cons_self _ _)) (h2 t (List.mem_cons_self _ _))]
    exact ih (fun T hT => h1 T (List.mem_cons_of_mem _ hT))
      (fun T hT => h2 T (List.mem_cons_of_mem _ hT))

theorem not_mem_topicsOf_of_not_key (b : Broker) (hinv : MembershipInv b) (s : Ptr)
    (T : String) (h : ¬ IsKey b T (idOf b s)) : T ∉ (topicsOf b s).keys := by
  by_cases hs : s < b.heap.length
  · exact fun hT => h ((hinv s hs T).2 hT)
  · simp [topicsOf, deref_zero_of_invalid _ _ hs, Subscriber.zero]

/-- C8: in a state satisfying the topic-membership invariant, `Unsubscribe(s, ts...)`
with `s` a member of none of the topics of `ts` (topics without an entry included)
leaves `b.topics`, `b.subscribers` and every `s.topics` exactly as they were; this
is so for every topic list once `s` has been detached. -/
theorem Unsubscribe_nonmember (b : Broker) (hinv : MembershipInv b) (s : Ptr)
    (ts : List String) (hnon : ∀ T ∈ ts, ¬ IsKey b T (idOf b s)) :
    Unsubscribe b s ts = b ∧
    (s < b.heap.length → ∀ ts', Unsubscribe (Detach b s) s ts' = Detach b s) := by
  refine ⟨Unsubscribe_eq_self b s ts hnon
    (fun T hT => not_mem_topicsOf_of_not_key b hinv s T (hnon T hT)), ?_⟩
  intro hs ts'
  refine Unsubscribe_eq_self _ s ts' ?_ ?_
  · intro T _
    rw [Detach_idOf]
    exact Detach_not_key b hinv s hs T
  · intro T _
    simp [GoMap.keys, Detach_topicsOf b hinv s]

theorem Unsubscribe_nonmember_witness :
    MembershipInv scenario ∧
      (∀ T ∈ ["sports", "weather"], ¬ IsKey scenario T (idOf scenario 0)) ∧
      Unsubscribe scenario 0 ["sports", "weather"] = scenario ∧
      ((0 : Ptr) < scenario.heap.length →
        ∀ ts', Unsubscribe (Detach scenario 0) 0 ts' = Detach scenario 0) :=
  ⟨MembershipInv_scenario, by decide,
    Unsubscribe_nonmember scenario MembershipInv_scenario 0 ["sports", "weather"] (by decide)⟩

/-! ## C9 -/

theorem broadcastFrom_skip {P : Type} (b : Broker) (clock : Nat → Int) (p : P) (T : String)
    (h : members b T = []) (pre post : List String) (n : Nat) :
    broadcastFrom b clock p n (pre ++ T :: post) = broadcastFrom b clock p n (pre ++ post) := by
  induction pre generalizing n with
  | nil => simp [broadcastFrom_cons, h, dispatch]
  | cons t rest ih => simp only [List.cons_append, broadcastFrom_cons, ih]

/-- C9: for a topic `T` that has no entry in `b.topics`, or an entry without
subscribers, `Broadcast(p, T)` dispatches nothing, and in a longer topic list `T`
is passed over: the call dispatches what it dispatches without `T`, so a later
topic still gets one attempt per subscriber. -/
theorem Broadcast_empty_topic {P : Type} (b : Broker) (clock : Nat → Int) (p : P) (T : String)
    (h : b.topics.get T = none ∨ ∃ m, b.topics.get T = some m ∧ m.entries = []) :
    Broadcast b clock p [T] = [] ∧
    (∀ pre post, Broadcast b clock p (pre ++ T :: post) = Broadcast b clock p (pre ++ post)) ∧
    (∀ T', Broadcast b clock p [T, T'] = Broadcast b clock p [T'] ∧
      (Broadcast b clock p [T, T']).length = Subscribers b T') := by
  have hm : members b T = [] := by
    rcases h with h | ⟨m, h, hm⟩ <;> simp [members, h, *]
  have hskip := fun pre post => broadcastFrom_skip b clock p T hm pre post 0
  refine ⟨?_, hskip, ?_⟩
  · rw [Broadcast_one, hm]; rfl
  · intro T'
    have h1 : Broadcast b clock p [T, T'] = Broadcast b clock p [T'] := hskip [] [T']
    refine ⟨h1, ?_⟩
    rw [h1, Broadcast_one, Subscribers_eq_length]
    have := congrArg List.length (dispatch_targets clock p T' 0 (members b T'))
    simpa using this

theorem Broadcast_empty_topic_witness :
    (∃ m, scenarioEmptied.topics.get "sports" = some m ∧ m.entries = []) ∧
      Broadcast scenarioEmptied (fun _ => 0) "x" ["sports"] = [] ∧
      (∀ pre post, Broadcast scenarioEmptied (fun _ => 0) "x" (pre ++ "sports" :: post) =
        Broadcast scenarioEmptied (fun _ => 0) "x" (pre ++ post)) ∧
      (∀ T', Broadcast scenarioEmptied (fun _ => 0) "x" ["sports", T'] =
          Broadcast scenarioEmptied (fun _ => 0) "x" [T'] ∧
        (Broadcast scenarioEmptied (fun _ => 0) "x" ["sports", T']).length =
          Subscribers scenarioEmptied T') ∧
      (Broadcast scenarioEmptied (fun _ => 0) "x" ["sports", "news"]).length = 2 :=
  ⟨⟨_, rfl, rfl⟩,
    (Broadcast_empty_topic scenarioEmptied (fun _ => 0) "x" "sports" (Or.inr ⟨_, rfl, rfl⟩)).1,
    (Broadcast_empty_topic scenarioEmptied (fun _ => 0) "x" "sports" (Or.inr ⟨_, rfl, rfl⟩)).2.1,
    (Broadcast_empty_topic scenarioEmptied (fun _ => 0) "x" "sports" (Or.inr ⟨_, rfl, rfl⟩)).2.2,
    by decide⟩

/-! ## C10 -/

theorem Subscribers_Subscribe (b : Broker) (s : Ptr) (ts : List String) (T : String) :
    Subscribers (Subscribe b s ts) T =
      Subscribers b T + if T ∈ ts ∧ ¬ IsKey b T (idOf b s) then 1 else 0 := by
  have hkey := isKey_iff b T (idOf b s)
  unfold Subscribers
  rw [Subscribe_get]
  by_cases hT : T ∈ ts
  · cases hg : b.topics.get T with
    | none =>
      have : ¬ IsKey b T (idOf b s) := by simp [hkey, hg]
      simp [hT, GoMap.len_set, this]
    | some m =>
      by_cases hk : idOf b s ∈ m.keys
      · have : IsKey b T (idOf b s) := by simp [hkey, hg, hk]
        simp [hT, GoMap.len_set, hk, this]
      · have : ¬ IsKey b T (idOf b s) := by simp [hkey, hg, hk]
        simp [hT, GoMap.len_set, hk, this]
  · simp [hT]

theorem Subscribers_Unsubscribe (b : Broker) (s : Ptr) (ts : List String) (T : String) :
    Subscribers (Unsubscribe b s ts) T + (if T ∈ ts ∧ IsKey b T (idOf b s) then 1 else 0) =
      Subscribers b T := by
  have hkey := isKey_iff b T (idOf b s)
  unfold Subscribers
  rw [Unsubscribe_get]
  by_cases hT : T ∈ ts
  · cases hg : b.topics.get T with
    | none =>
      have : ¬ IsKey b T (idOf b s) := by simp [hkey, hg]
      simp [hT, this]
    | some m =>
      by_cases hk : idOf b s ∈ m.keys
      · have hpos : 0 < m.len := by
          unfold GoMap.len
          unfold GoMap.keys at hk
          cases hm : m.entries with
          | nil => simp [hm] at hk
          | cons _ _ => simp
        have : IsKey b T (idOf b s) := by simp [hkey, hg, hk]
        simp only [hT, if_true, Option.map_some', GoMap.len_delete, hk, this, and_self]
        omega
      · have : ¬ IsKey b T (idOf b s) := by simp [hkey, hg, hk]
        simp [hT, GoMap.len_delete, hk, this]
  · simp [hT]

/-- C10: `Subscribers(T)` is the number of distinct subscriber ids in `b.topics[T]`;
it is 0 exactly when no id is a key of `b.topics[T]` (no entry, or an emptied one),
as on a new broker; `Subscribe(s, ...T...)` raises it by 1 when `s.id` was not a key
and leaves it otherwise, and `Unsubscribe(s, ...T...)` lowers it by 1 when `s.id` was
a key and leaves it otherwise. -/
theorem Subscribers_card (b : Broker) (T : String) :
    Subscribers b T = ((members b T).map Prod.fst).toFinset.card ∧
    (Subscribers b T = 0 ↔ ∀ id, ¬ IsKey b T id) ∧
    (b.topics.get T = none → Subscribers b T = 0) ∧
    Subscribers NewBroker T = 0 ∧
    (∀ s ts, Subscribers (Subscribe b s ts) T =
      Subscribers b T + if T ∈ ts ∧ ¬ IsKey b T (idOf b s) then 1 else 0) ∧
    (∀ s ts, Subscribers (Unsubscribe b s ts) T +
      (if T ∈ ts ∧ IsKey b T (idOf b s) then 1 else 0) = Subscribers b T) := by
  refine ⟨?_, ?_, fun h => by simp [Subscribers, h], rfl,
    fun s ts => Subscribers_Subscribe b s ts T,
    fun s ts => Subscribers_Unsubscribe b s ts T⟩
  · rw [List.toFinset_card_of_nodup (members_nodup b T), List.length_map,
      Subscribers_eq_length]
  · rw [Subscribers_eq_length]
    unfold IsKey
    cases members b T with
    | nil => simp
    | cons e r => simp only [List.length_cons, Nat.add_one_ne_zero, List.map_cons,
        List.mem_cons, not_or, false_iff, not_forall, not_and, not_not]; exact ⟨e.1, fun h => absurd rfl h⟩

/-! ## C11 -/

theorem mem_GetTopics (b : Broker) (T : String) : T ∈ GetTopics b ↔ b.topics.get T ≠ none := by
  unfold GetTopics
  rw [GoMap.mem_keys]
  cases b.topics.get T <;> simp

theorem mem_GetTopics_Subscribe (b : Broker) (s : Ptr) (ts : List String) (T : String) :
    T ∈ GetTopics (Subscribe b s ts) ↔ T ∈ GetTopics b ∨ T ∈ ts := by
  simp only [mem_GetTopics, Subscribe_get]
  by_cases hT : T ∈ ts <;> simp [hT]

theorem mem_GetTopics_Unsubscribe (b : Broker) (s : Ptr) (ts : List String) (T : String) :
    T ∈ GetTopics (Unsubscribe b s ts) ↔ T ∈ GetTopics b := by
  simp only [mem_GetTopics, Unsubscribe_get]
  by_cases hT : T ∈ ts
  · cases b.topics.get T <;> simp [hT]
  · simp [hT]

theorem mem_GetTopics_Detach (b : Broker) (s : Ptr) (T : String) :
    T ∈ GetTopics (Detach b s) ↔ T ∈ GetTopics b := by
  have h : GetTopics (Detach b s) =
      GetTopics (Unsubscribe (destroyIn b s) s (topicsOf b s).keys) := by
    simp only [GetTopics, Detach_topics]
  rw [h, mem_GetTopics_Unsubscribe]
  rfl

theorem mem_GetTopics_apply (b : Broker) (op : Op) (T : String) :
    T ∈ GetTopics (op.apply b) ↔ T ∈ GetTopics b ∨ T ∈ subscribedNames [op] := by
  cases op with
  | attach rnd now =>
    cases rnd with
    | error e => simp [Op.apply, Attach, subscribedNames]
    | ok r => simp [Op.apply, Attach, subscribedNames, GetTopics]
  | subscribe s ts =>
    simpa [Op.apply, subscribedNames] using mem_GetTopics_Subscribe b s ts T
  | unsubscribe s ts =>
    simpa [Op.apply, subscribedNames] using mem_GetTopics_Unsubscribe b s ts T
  | detach s => simpa [Op.apply, subscribedNames] using mem_GetTopics_Detach b s T

theorem subscribedNames_cons (op : Op) (rest : List Op) :
    subscribedNames (op :: rest) = subscribedNames [op] ++ subscribedNames rest := by
  cases op <;> simp [subscribedNames]

theorem mem_GetTopics_run (ops : List Op) (b : Broker) (T : String) :
    T ∈ GetTopics (run b ops) ↔ T ∈ GetTopics b ∨ T ∈ subscribedNames ops := by
  induction ops generalizing b with
  | nil => simp [run, subscribedNames]
  | cons op rest ih =>
    have : run b (op :: rest) = run (op.apply b) rest := rfl
    rw [this, ih, mem_GetTopics_apply, subscribedNames_cons op rest, List.mem_append, or_assoc]

/-- C11: `GetTopics()` lists exactly the names that have an entry in `b.topics`, each
once; calls only ever add the names passed to `Subscribe`, so a name once listed
stays listed, and after any sequence of calls on a new broker the result is, as a
set, the set of names passed to `Subscribe` (a name passed only to `Unsubscribe` or
`Detach`'s unsubscription never appears); on a new broker it is empty. -/
theorem GetTopics_spec (b : Broker) :
    (GetTopics b).Nodup ∧
    (∀ T, T ∈ GetTopics b ↔ b.topics.get T ≠ none) ∧
    (∀ ops T, T ∈ GetTopics (run b ops) ↔ T ∈ GetTopics b ∨ T ∈ subscribedNames ops) ∧
    (∀ ops T, T ∈ GetTopics (run NewBroker ops) ↔ T ∈ subscribedNames ops) ∧
    (∀ s ts T, T ∈ GetTopics (Unsubscribe b s ts) ↔ T ∈ GetTopics b) ∧
    (∀ s T, T ∈ GetTopics (Detach b s) ↔ T ∈ GetTopics b) ∧
    GetTopics NewBroker = [] := by
  refine ⟨b.topics.nodup, mem_GetTopics b, fun ops T => mem_GetTopics_run ops b T, ?_,
    fun s ts T => mem_GetTopics_Unsubscribe b s ts T,
    fun s T => mem_GetTopics_Detach b s T, rfl⟩
  intro ops T
  rw [mem_GetTopics_run]
  simp [GetTopics, NewBroker]

/-! ## The hexadecimal encoding -/

theorem hexDigit_inj16 : ∀ a b : Fin 16, hexDigit a.val = hexDigit b.val → a = b := by
  decide

theorem hexDigit_inj (a b : Nat) (ha : a < 16) (hb : b < 16) (h : hexDigit a = hexDigit b) :
    a = b := by
  have := hexDigit_inj16 ⟨a, ha⟩ ⟨b, hb⟩ h
  exact congrArg Fin.val this

theorem hexDigit_mem16 : ∀ a : Fin 16, hexDigit a.val ∈ "0123456789abcdef".data := by
  decide

theorem hexDigit_mem (a : Nat) (ha : a < 16) : hexDigit a ∈ "0123456789abcdef".data :=
  hexDigit_mem16 ⟨a, ha⟩

/-- The two digits written for one byte. -/
theorem hexPair_inj (x y : Byte)
    (h1 : hexDigit (x.val / 16) = hexDigit (y.val / 16))
    (h2 : hexDigit (x.val % 16) = hexDigit (y.val % 16)) : x = y := by
  have hx := x.isLt
  have hy := y.isLt
  have e1 := hexDigit_inj _ _ (by omega) (by omega) h1
  have e2 := hexDigit_inj _ _ (by omega) (by omega) h2
  apply Fin.ext
  omega

theorem hexChars_inj (xs ys : List Byte)
    (h : xs.flatMap (fun x => [hexDigit (x.val / 16), hexDigit (x.val % 16)]) =
      ys.flatMap (fun x => [hexDigit (x.val / 16), hexDigit (x.val % 16)])) : xs = ys := by
  induction xs generalizing ys with
  | nil =>
    cases ys with
    | nil => rfl
    | cons y ys => simp at h
  | cons x xs ih =>
    cases ys with
    | nil => simp at h
    | cons y ys =>
      simp only [List.flatMap_cons, List.cons_append, List.nil_append, List.cons.injEq] at h
      obtain ⟨h1, h2, h3⟩ := h
      rw [hexPair_inj x y h1 h2, ih ys h3]

theorem hexEncode_injective : Function.Injective hexEncode := by
  intro xs ys h
  unfold hexEncode at h
  exact hexChars_inj xs ys (congrArg String.data h)

theorem hexEncode_length (bs : List Byte) : (hexEncode bs).length = 2 * bs.length := by
  unfold hexEncode
  rw [String.length_mk]
  induction bs with
  | nil => rfl
  | cons x xs ih => simp only [List.flatMap_cons, List.length_append, List.length_cons,
      List.length_nil, ih]; omega

theorem hexEncode_chars (bs : List Byte) :
    ∀ c ∈ (hexEncode bs).data, c ∈ "0123456789abcdef".data := by
  unfold hexEncode
  intro c hc
  simp only [List.mem_flatMap, List.mem_cons, List.mem_singleton] at hc
  obtain ⟨x, _, hx⟩ := hc
  have hlt := x.isLt
  rcases hx with rfl | hx | hx
  · exact hexDigit_mem _ (by omega)
  · rw [hx]; exact hexDigit_mem _ (by omega)
  · simp at hx

/-! ## C12 -/

/-- C12: when the randomness source returns 50 bytes `r`, `Attach` returns a
subscriber whose id is the hex encoding of `r` (100 characters, each in 0-9a-f), with
an empty topic set and `destroyed = false`; afterwards `b.subscribers` is the
previous registry with `s.id ↦ s` written into it and `b.topics` is unchanged, so
`Subscribers(T)` and `GetTopics()` are unaffected. -/
theorem Attach_success (b : Broker) (r : List Byte) (hr : r.length = 50) (now : Int) :
    ∃ s b', Attach b (.ok r) now = .ok (s, b') ∧
      idOf b' s = hexEncode r ∧
      (hexEncode r).length = 100 ∧
      (∀ c ∈ (hexEncode r).data, c ∈ "0123456789abcdef".data) ∧
      (topicsOf b' s).entries = [] ∧
      (deref b'.heap s).destroyed = false ∧
      (deref b'.heap s).createdAt = now ∧
      b'.subscribers = b.subscribers.set (idOf b' s) s ∧
      b'.subscribers.get (idOf b' s) = some s ∧
      b'.topics = b.topics ∧
      (∀ T, Subscribers b' T = Subscribers b T) ∧
      GetTopics b' = GetTopics b ∧
      (∀ q, q < b.heap.length → deref b'.heap q = deref b.heap q) := by
  refine ⟨_, _, Attach_ok b r now, ?_, ?_, hexEncode_chars r, ?_, ?_, ?_, ?_, ?_, rfl,
    fun T => rfl, rfl, ?_⟩
  · simp only [idOf, deref_append_new]
  · rw [hexEncode_length, hr]
  · simp only [topicsOf, deref_append_new]; rfl
  · simp only [deref_append_new]
  · simp only [deref_append_new]
  · simp only [idOf, deref_append_new]
  · simp only [idOf, deref_append_new, GoMap.get_set, if_true]
  · intro q hq
    exact deref_append_old _ _ q hq

theorem Attach_success_witness :
    (List.replicate 50 (0xab : Byte)).length = 50 ∧
    ∃ s b', Attach scenario (.ok (List.replicate 50 0xab)) 7 = .ok (s, b') ∧
      idOf b' s = hexEncode (List.replicate 50 0xab) ∧
      (hexEncode (List.replicate 50 0xab)).length = 100 ∧
      (∀ c ∈ (hexEncode (List.replicate 50 0xab)).data, c ∈ "0123456789abcdef".data) ∧
      (topicsOf b' s).entries = [] ∧
      (deref b'.heap s).destroyed = false ∧
      (deref b'.heap s).createdAt = 7 ∧
      b'.subscribers = scenario.subscribers.set (idOf b' s) s ∧
      b'.subscribers.get (idOf b' s) = some s ∧
      b'.topics = scenario.topics ∧
      (∀ T, Subscribers b' T = Subscribers scenario T) ∧
      GetTopics b' = GetTopics scenario ∧
      (∀ q, q < scenario.heap.length → deref b'.heap q = deref scenario.heap q) :=
  ⟨by decide, Attach_success scenario (List.replicate 50 0xab) (by decide) 7⟩

/-! ## C13 -/

/-- C13: `Attach` returns an error exactly when reading the random bytes returns
one, the error returned is that error (and no subscriber comes with it), and the
state after a failed call is the state before it. -/
theorem Attach_fails_iff (b : Broker) (rnd : Except Error (List Byte)) (now : Int) :
    ((∃ e, Attach b rnd now = .error e) ↔ ∃ e, rnd = .error e) ∧
    (∀ e, Attach b rnd now = .error e ↔ rnd = .error e) ∧
    (∀ e, rnd = .error e →
      (Op.attach rnd now).apply b = b ∧
      ((Op.attach rnd now).apply b).subscribers = b.subscribers ∧
      ((Op.attach rnd now).apply b).topics = b.topics ∧
      ((Op.attach rnd now).apply b).heap = b.heap) ∧
    (∀ r, rnd = .ok r → ∃ s b', Attach b rnd now = .ok (s, b')) := by
  cases rnd with
  | error e0 =>
    refine ⟨⟨fun _ => ⟨e0, rfl⟩, fun _ => ⟨e0, rfl⟩⟩, fun e => ?_, fun e _ => ⟨rfl, rfl, rfl, rfl⟩,
      fun r h => (by cases h)⟩
    simp [Attach]
  | ok r =>
    refine ⟨⟨fun ⟨e, h⟩ => (by simp [Attach] at h), fun ⟨e, h⟩ => (by cases h)⟩, fun e => ?_,
      fun e h => (by cases h), fun r' _ => ⟨_, _, Attach_ok b r now⟩⟩
    simp [Attach]

/-! ## C14 -/

theorem setE_new {V : Type} (l : List (String × V)) (k : String) (v : V)
    (h : k ∉ l.map Prod.fst) : setE l k v = l ++ [(k, v)] := by
  induction l with
  | nil => rfl
  | cons e r ih =>
    obtain ⟨k0, v0⟩ := e
    simp only [List.map_cons, List.mem_cons, not_or] at h
    have h0 : ¬ k0 = k := fun e => h.1 e.symm
    simp [setE, h0, ih h.2]

theorem run_cons (b : Broker) (op : Op) (rest : List Op) :
    run b (op :: rest) = run (op.apply b) rest := rfl

theorem attachOps_cons (d : List Byte × Int) (rest : List (List Byte × Int)) :
    attachOps (d :: rest) = Op.attach (.ok d.1) d.2 :: attachOps rest := rfl

theorem run_attachOps_heap (draws : List (List Byte × Int)) (b : Broker) :
    (run b (attachOps draws)).heap = b.heap ++ draws.map (fun d => newSubscriber d.1 d.2) ∧
      (run b (attachOps draws)).topics = b.topics := by
  induction draws generalizing b with
  | nil => simp [attachOps, run]
  | cons d rest ih =>
    rw [attachOps_cons, run_cons]
    obtain ⟨h1, h2⟩ := ih ((Op.attach (.ok d.1) d.2).apply b)
    rw [h1, h2]
    simp [Op.apply, Attach, newSubscriber]

theorem run_attachOps_subscribers (draws : List (List Byte × Int)) (b : Broker)
    (hd : (draws.map Prod.fst).Nodup)
    (hfresh : ∀ d ∈ draws, hexEncode d.1 ∉ b.subscribers.keys) :
    (run b (attachOps draws)).subscribers.entries =
      b.subscribers.entries ++
        (draws.enumFrom b.heap.length).map (fun e => (hexEncode e.2.1, e.1)) := by
  induction draws generalizing b with
  | nil => simp [attachOps, run]
  | cons d rest ih =>
    rw [attachOps_cons, run_cons]
    simp only [List.map_cons, List.nodup_cons] at hd
    have hnew : hexEncode d.1 ∉ b.subscribers.keys := hfresh d (List.mem_cons_self _ _)
    have hent : ((Op.attach (.ok d.1) d.2).apply b).subscribers.entries =
        b.subscribers.entries ++ [(hexEncode d.1, b.heap.length)] :=
      setE_new _ _ _ hnew
    have hlen : ((Op.attach (.ok d.1) d.2).apply b).heap.length = b.heap.length + 1 := by
      simp [Op.apply, Attach]
    rw [ih _ hd.2, hent, hlen]
    · simp [List.enumFrom_cons]
    · intro d' hd' hk
      unfold GoMap.keys at hk
      rw [hent, List.map_append, List.mem_append] at hk
      rcases hk with hk | hk
      · exact hfresh d' (List.mem_cons_of_mem _ hd') hk
      · simp only [List.map_cons, List.map_nil, List.mem_singleton] at hk
        have := hexEncode_injective hk
        exact hd.1 (this ▸ List.mem_map_of_mem Prod.fst hd')

theorem enumFrom_keys (draws : List (List Byte × Int)) (n : Nat) :
    ((draws.enumFrom n).map (fun e => (hexEncode e.2.1, e.1))).map Prod.fst =
      draws.map (fun d => hexEncode d.1) := by
  induction draws generalizing n with
  | nil => rfl
  | cons d rest ih => simp [List.enumFrom_cons, ih]

/-- C14: the hex encoding is injective, so consecutive successful `Attach` calls
whose draws of random bytes are pairwise distinct create subscribers with pairwise
distinct ids; when none of the ids is in the registry already (as on a new broker),
the registry keeps every earlier entry and gains one entry `id ↦ subscriber` per
call, so it grows by exactly the number of calls. -/
theorem Attach_ids_unique (draws : List (List Byte × Int))
    (hd : (draws.map Prod.fst).Nodup) :
    Function.Injective hexEncode ∧
    (draws.map (fun d => (newSubscriber d.1 d.2).id)).Nodup ∧
    (∀ b : Broker,
      (run b (attachOps draws)).heap = b.heap ++ draws.map (fun d => newSubscriber d.1 d.2)) ∧
    (∀ b : Broker, (∀ d ∈ draws, hexEncode d.1 ∉ b.subscribers.keys) →
      (run b (attachOps draws)).subscribers.entries =
        b.subscribers.entries ++
          (draws.enumFrom b.heap.length).map (fun e => (hexEncode e.2.1, e.1)) ∧
      (run b (attachOps draws)).subscribers.len = b.subscribers.len + draws.length ∧
      (∀ k, k ∈ b.subscribers.keys →
        (run b (attachOps draws)).subscribers.get k = b.subscribers.get k)) ∧
    (run NewBroker (attachOps draws)).subscribers.len = draws.length ∧
    (run NewBroker (attachOps draws)).subscribers.keys =
      draws.map (fun d => (newSubscriber d.1 d.2).id) := by
  have hgen : ∀ b : Broker, (∀ d ∈ draws, hexEncode d.1 ∉ b.subscribers.keys) →
      (run b (attachOps draws)).subscribers.entries =
        b.subscribers.entries ++
          (draws.enumFrom b.heap.length).map (fun e => (hexEncode e.2.1, e.1)) :=
    fun b hfresh => run_attachOps_subscribers draws b hd hfresh
  have hnew := hgen NewBroker (fun d _ => by simp [NewBroker, GoMap.keys, GoMap.empty])
  refine ⟨hexEncode_injective, ?_, fun b => (run_attachOps_heap draws b).1, ?_, ?_, ?_⟩
  · have : draws.map (fun d => (newSubscriber d.1 d.2).id) =
        (draws.map Prod.fst).map hexEncode := by
      simp [newSubscriber, Function.comp_def]
    rw [this]
    exact List.Nodup.map hexEncode_injective hd
  · intro b hfresh
    have hs := hgen b hfresh
    refine ⟨hs, by simp [GoMap.len, hs], ?_⟩
    intro k hk
    obtain ⟨v, hv⟩ := (GoMap.mem_keys _ _).1 hk
    rw [hv, GoMap.get_eq_some, hs]
    exact List.mem_append_left _ ((GoMap.get_eq_some _ _ _).1 hv)
  · have h0 : NewBroker.subscribers.entries = [] := rfl
    rw [GoMap.len, hnew, h0]
    simp
  · have h0 : NewBroker.subscribers.entries = [] := rfl
    rw [GoMap.keys, hnew, h0, List.nil_append, enumFrom_keys]
    rfl

theorem Attach_ids_unique_witness :
    (draws3.map Prod.fst).Nodup ∧
    (draws3.map (fun d => (newSubscriber d.1 d.2).id)).Nodup ∧
    (run NewBroker (attachOps draws3)).subscribers.len = 3 ∧
    (∀ d ∈ draws3, hexEncode d.1 ∉ scenario.subscribers.keys) ∧
    (run scenario (attachOps draws3)).subscribers.len = scenario.subscribers.len + draws3.length :=
  ⟨by decide, (Attach_ids_unique draws3 (by decide)).2.1,
    (Attach_ids_unique draws3 (by decide)).2.2.2.2.1, by decide,
    ((Attach_ids_unique draws3 (by decide)).2.2.2.1 scenario (by decide)).2.1⟩

/-! ## C15 -/

theorem readsLocked_append_balanced (T : String) (rest : List LockEvent) :
    readsLocked 0 (SubscribersEvents T ++ rest) = readsLocked 0 rest := by
  simp [SubscribersEvents, readsLocked]

theorem readsLocked_BroadcastEvents (b : Broker) (ts : List String) :
    readsLocked 0 (BroadcastEvents b ts) = true ↔ ∀ T ∈ ts, Subscribers b T = 0 := by
  induction ts with
  | nil => simp [BroadcastEvents, readsLocked]
  | cons t rest ih =>
    rw [BroadcastEvents, List.append_assoc, readsLocked_append_balanced]
    by_cases h : Subscribers b t < 1
    · have h0 : Subscribers b t = 0 := by omega
      simp [h, h0, ih]
    · have h0 : Subscribers b t ≠ 0 := by omega
      simp [h, h0, readsLocked]

/-- C15 (the code departs from it): `Subscribers` reads `b.topics` under the read
lock, but in `Broadcast("hello", "news")` on the scenario's broker the iteration over
`b.topics["news"]` happens after `Subscribers` has released the lock, with no lock
held; the reads of `Broadcast` are all locked only when every named topic is empty. -/
theorem Broadcast_reads_unlocked :
    readsLocked 0 (SubscribersEvents "news") = true ∧
    BroadcastEvents scenario ["news"] =
      [.rlock, .read "news", .runlock, .read "news"] ∧
    readsLocked 0 (BroadcastEvents scenario ["news"]) = false ∧
    (∀ (b : Broker) (ts : List String),
      readsLocked 0 (BroadcastEvents b ts) = true ↔ ∀ T ∈ ts, Subscribers b T = 0) :=
  ⟨by decide, by decide, by decide, readsLocked_BroadcastEvents⟩

/-! ## C16 -/

theorem dispatch_stamps {P : Type} (clock : Nat → Int) (p : P) (T : String) (n : Nat)
    (l : List (String × Ptr)) :
    (dispatch clock p T n l).map (fun d => d.msg) =
      (List.range l.length).map (fun i => (⟨T, p, clock (n + i)⟩ : Message P)) := by
  induction l generalizing n with
  | nil => rfl
  | cons e r ih =>
    obtain ⟨k, s⟩ := e
    simp only [dispatch, List.map_cons, ih, List.length_cons, List.range_succ_eq_map,
      List.map_map, Nat.add_zero, List.cons.injEq, true_and]
    apply List.map_congr_left
    intro i _
    simp only [Function.comp_apply]
    congr 2
    omega

theorem Broadcast_msgs {P : Type} (b : Broker) (clock : Nat → Int) (p : P) (T : String) :
    (Broadcast b clock p [T]).map (fun d => d.msg) =
      (List.range (Subscribers b T)).map (fun i => (⟨T, p, clock i⟩ : Message P)) := by
  rw [Broadcast_one, dispatch_stamps, Subscribers_eq_length]
  simp

/-- C16, as amended: `Broadcast(p, T)` builds one `Message` per member, not one per
topic: the message of the `i`-th attempt carries topic `T`, payload `p` and the
`i`-th reading of the clock made during the call. All attempts carry the same topic
and payload, and they carry the same `Message` value exactly when those readings of
the clock are all equal. -/
theorem Broadcast_messages {P : Type} (b : Broker) (clock : Nat → Int) (p : P) (T : String) :
    (Broadcast b clock p [T]).map (fun d => d.msg) =
      (List.range (Subscribers b T)).map (fun i => (⟨T, p, clock i⟩ : Message P)) ∧
    (∀ d1 ∈ Broadcast b clock p [T], ∀ d2 ∈ Broadcast b clock p [T],
      d1.msg.topic = d2.msg.topic ∧ d1.msg.payload = d2.msg.payload) ∧
    ((∀ d1 ∈ Broadcast b clock p [T], ∀ d2 ∈ Broadcast b clock p [T], d1.msg = d2.msg) ↔
      ∀ i, i < Subscribers b T → ∀ j, j < Subscribers b T → clock i = clock j) := by
  have hm := Broadcast_msgs b clock p T
  have hmem : ∀ m : Message P, (∃ d ∈ Broadcast b clock p [T], d.msg = m) ↔
      ∃ i, i < Subscribers b T ∧ m = ⟨T, p, clock i⟩ := by
    intro m
    have : m ∈ (Broadcast b clock p [T]).map (fun d => d.msg) ↔
        m ∈ (List.range (Subscribers b T)).map (fun i => (⟨T, p, clock i⟩ : Message P)) := by
      rw [hm]
    simp only [List.mem_map, List.mem_range] at this
    constructor
    · rintro ⟨d, hd, rfl⟩
      obtain ⟨i, hi, hmi⟩ := this.1 ⟨d, hd, rfl⟩
      exact ⟨i, hi, hmi.symm⟩
    · rintro ⟨i, hi, rfl⟩
      exact this.2 ⟨i, hi, rfl⟩
  refine ⟨hm, ?_, ?_, ?_⟩
  · intro d1 h1 d2 h2
    obtain ⟨i, _, e1⟩ := (hmem d1.msg).1 ⟨d1, h1, rfl⟩
    obtain ⟨j, _, e2⟩ := (hmem d2.msg).1 ⟨d2, h2, rfl⟩
    rw [e1, e2]
    exact ⟨rfl, rfl⟩
  · intro h i hi j hj
    obtain ⟨d1, h1, e1⟩ := (hmem ⟨T, p, clock i⟩).2 ⟨i, hi, rfl⟩
    obtain ⟨d2, h2, e2⟩ := (hmem ⟨T, p, clock j⟩).2 ⟨j, hj, rfl⟩
    have := h d1 h1 d2 h2
    rw [e1, e2] at this
    exact congrArg Message.createdAt this
  · intro h d1 h1 d2 h2
    obtain ⟨i, hi, e1⟩ := (hmem d1.msg).1 ⟨d1, h1, rfl⟩
    obtain ⟨j, hj, e2⟩ := (hmem d2.msg).1 ⟨d2, h2, rfl⟩
    rw [e1, e2, h i hi j hj]

/-- C16 as stated fails: "news" has two members in the scenario, and with a clock
that advances between two readings the two attempts of `Broadcast("hello", "news")`
carry messages with different time stamps. -/
theorem Broadcast_one_message_counterexample :
    Subscribers scenario "news" = 2 ∧
    Broadcast scenario (fun n => (n : Int)) "hello" ["news"] =
      [⟨0, ⟨"news", "hello", 0⟩⟩, ⟨1, ⟨"news", "hello", 1⟩⟩] ∧
    ¬ (∀ clock : Nat → Int,
        ∀ d1 ∈ Broadcast scenario clock "hello" ["news"],
        ∀ d2 ∈ Broadcast scenario clock "hello" ["news"], d1.msg = d2.msg) := by
  refine ⟨by decide, by decide, ?_⟩
  intro h
  have := h (fun n => (n : Int)) ⟨0, ⟨"news", "hello", 0⟩⟩ (by decide)
    ⟨1, ⟨"news", "hello", 1⟩⟩ (by decide)
  exact absurd this (by decide)

/-! ## C17 -/

theorem dispatch_shift {P : Type} (clock : Nat → Int) (p : P) (T : String) (n : Nat)
    (l : List (String × Ptr)) :
    dispatch clock p T n l = dispatch (fun i => clock (i + n)) p T 0 l := by
  have key : ∀ (k : Nat) (l : List (String × Ptr)),
      dispatch clock p T (k + n) l = dispatch (fun i => clock (i + n)) p T k l := by
    intro k l
    induction l generalizing k with
    | nil => rfl
    | cons e r ih =>
      obtain ⟨key, s⟩ := e
      simp only [dispatch]
      rw [← ih (k + 1)]
      congr 2
      omega
  have := key 0 l
  rwa [Nat.zero_add] at this

theorem broadcastFrom_shift {P : Type} (b : Broker) (clock : Nat → Int) (p : P) (n : Nat)
    (ts : List String) :
    broadcastFrom b clock p n ts = broadcastFrom b (fun i => clock (i + n)) p 0 ts := by
  have key : ∀ (k : Nat) (ts : List String),
      broadcastFrom b clock p (k + n) ts = broadcastFrom b (fun i => clock (i + n)) p k ts := by
    intro k ts
    induction ts generalizing k with
    | nil => rfl
    | cons t rest ih =>
      rw [broadcastFrom_cons, broadcastFrom_cons, ← ih]
      congr 1
      · rw [dispatch_shift clock p t (k + n), dispatch_shift (fun i => clock (i + n)) p t k]
        congr 1
        funext i
        congr 1
        omega
      · congr 1
        omega
  have := key 0 ts
  rwa [Nat.zero_add] at this

theorem Broadcast_cons {P : Type} (b : Broker) (clock : Nat → Int) (p : P) (t : String)
    (ts : List String) :
    Broadcast b clock p (t :: ts) =
      Broadcast b clock p [t] ++ Broadcast b (fun i => clock (i + Subscribers b t)) p ts := by
  rw [Broadcast_one, Broadcast, broadcastFrom_cons, Nat.zero_add, broadcastFrom_shift,
    Subscribers_eq_length]
  rfl

theorem dispatch_attempts {P : Type} (clock : Nat → Int) (p : P) (T : String) (n : Nat)
    (l : List (String × Ptr)) :
    (dispatch clock p T n l).map Delivery.attempt = l.map (fun e => (e.2, T, p)) := by
  induction l generalizing n with
  | nil => rfl
  | cons e r ih => obtain ⟨k, s⟩ := e; simp [dispatch, ih, Delivery.attempt]

theorem Broadcast_attempts {P : Type} (b : Broker) (clock : Nat → Int) (p : P)
    (ts : List String) :
    (Broadcast b clock p ts).map Delivery.attempt =
      ts.flatMap (fun t => (members b t).map (fun e => (e.2, t, p))) := by
  induction ts generalizing clock with
  | nil => rfl
  | cons t rest ih =>
    rw [Broadcast_cons, List.map_append, ih, Broadcast_one, dispatch_attempts]
    rfl

theorem Broadcast_length {P : Type} (b : Broker) (clock : Nat → Int) (p : P)
    (ts : List String) :
    (Broadcast b clock p ts).length = (ts.map (Subscribers b)).sum := by
  induction ts generalizing clock with
  | nil => rfl
  | cons t rest ih =>
    rw [Broadcast_cons, List.length_append, ih, Broadcast_one]
    have := congrArg List.length (dispatch_targets clock p t 0 (members b t))
    simp only [List.length_map] at this
    rw [this]
    simp [Subscribers_eq_length]

theorem dispatch_topics_of {P : Type} (clock : Nat → Int) (p : P) (T : String) (n : Nat)
    (l : List (String × Ptr)) (s : Ptr) :
    ((dispatch clock p T n l).filter (fun d => decide (d.target = s))).map
        (fun d => d.msg.topic) =
      List.replicate ((l.map Prod.snd).count s) T := by
  induction l generalizing n with
  | nil => rfl
  | cons e r ih =>
    obtain ⟨k, q⟩ := e
    by_cases h : q = s
    · subst h
      simp [dispatch, ih, List.replicate_succ]
    · have h' : ¬ (q == s) = true := by simpa using h
      simp [dispatch, ih, h, List.count_cons, h']

theorem Broadcast_topics_of {P : Type} (b : Broker) (hb : Good b) (clock : Nat → Int) (p : P)
    (ts : List String) (s : Ptr) (hs : s < b.heap.length) :
    ((Broadcast b clock p ts).filter (fun d => decide (d.target = s))).map
        (fun d => d.msg.topic) =
      ts.filter (fun t => decide (IsKey b t (idOf b s))) := by
  induction ts generalizing clock with
  | nil => rfl
  | cons t rest ih =>
    rw [Broadcast_cons, List.filter_append, List.map_append, ih, Broadcast_one,
      dispatch_topics_of, count_values_of_keyed b hb t s hs]
    by_cases h : IsKey b t (idOf b s)
    · simp [h, List.filter_cons]
    · simp [h, List.filter_cons]

/-- C17: a multi-topic `Broadcast` is the concatenation, topic by topic, of the
single-topic broadcasts (the clock running on from one topic to the next), with no
de-duplication: its attempts (subscriber, topic, payload) are those of
`Broadcast(p, t1)`, ..., `Broadcast(p, tk)` in turn, their number is the sum of
`Subscribers(ti)`, in a consistent state the attempts addressed to a subscriber are
tagged, in order, with the listed topics it is a member of (one per occurrence in
the list), and an empty topic list dispatches nothing. -/
theorem Broadcast_multi {P : Type} (b : Broker) (clock : Nat → Int) (p : P)
    (ts : List String) :
    (∀ t, Broadcast b clock p (t :: ts) =
      Broadcast b clock p [t] ++ Broadcast b (fun i => clock (i + Subscribers b t)) p ts) ∧
    (∀ clock' : Nat → Int, (Broadcast b clock p ts).map Delivery.attempt =
      ts.flatMap (fun t => (Broadcast b clock' p [t]).map Delivery.attempt)) ∧
    (Broadcast b clock p ts).length = (ts.map (Subscribers b)).sum ∧
    (Good b → ∀ s, s < b.heap.length →
      ((Broadcast b clock p ts).filter (fun d => decide (d.target = s))).map
          (fun d => d.msg.topic) =
        ts.filter (fun t => decide (IsKey b t (idOf b s))) ∧
      ((Broadcast b clock p ts).map Delivery.target).count s =
        (ts.filter (fun t => decide (IsKey b t (idOf b s)))).length) ∧
    Broadcast b clock p [] = [] := by
  refine ⟨fun t => Broadcast_cons b clock p t ts, ?_, Broadcast_length b clock p ts, ?_, rfl⟩
  · intro clock'
    rw [Broadcast_attempts]
    congr 1
    funext t
    rw [Broadcast_attempts]
    simp
  · intro hb s hs
    have h := Broadcast_topics_of b hb clock p ts s hs
    refine ⟨h, ?_⟩
    have := congrArg List.length h
    rw [List.length_map] at this
    rw [← this, List.count_eq_countP, List.countP_map, List.countP_eq_length_filter]
    congr 1

theorem Broadcast_multi_scenario :
    Good scenario ∧
    Broadcast scenario (fun n => (n : Int)) "x" ["news", "sports", "weather", "news"] =
      [⟨0, ⟨"news", "x", 0⟩⟩, ⟨1, ⟨"news", "x", 1⟩⟩, ⟨1, ⟨"sports", "x", 2⟩⟩,
       ⟨0, ⟨"news", "x", 3⟩⟩, ⟨1, ⟨"news", "x", 4⟩⟩] ∧
    ((Broadcast scenario (fun n => (n : Int)) "x" ["news", "sports", "weather", "news"]).filter
        (fun d => decide (d.target = 1))).map (fun d => d.msg.topic) =
      ["news", "sports", "news"] ∧
    ((Broadcast scenario (fun n => (n : Int)) "x"
        ["news", "sports", "weather", "news"]).map Delivery.target).count 1 = 3 :=
  ⟨Good_of_Reachable _ Reachable_scenario, by decide,
    ((Broadcast_multi scenario (fun n => (n : Int)) "x"
      ["news", "sports", "weather", "news"]).2.2.2.1
        (Good_of_Reachable _ Reachable_scenario) 1 (by decide)).1,
    ((Broadcast_multi scenario (fun n => (n : Int)) "x"
      ["news", "sports", "weather", "news"]).2.2.2.1
        (Good_of_Reachable _ Reachable_scenario) 1 (by decide)).2⟩

/-! ## C18 -/

theorem memberAt_eq (b : Broker) (T k : String) :
    memberAt b T k = (b.topics.get T).bind (fun m => m.get k) := by
  unfold memberAt members
  cases b.topics.get T <;> rfl

theorem memberAt_Subscribe (b : Broker) (s : Ptr) (ts : List String) (T k : String)
    (h : k ≠ idOf b s ∨ T ∉ ts) : memberAt (Subscribe b s ts) T k = memberAt b T k := by
  rw [memberAt_eq, memberAt_eq, Subscribe_get]
  by_cases hT : T ∈ ts
  · have hk : k ≠ idOf b s := h.resolve_right (fun h' => h' hT)
    cases hg : b.topics.get T <;> simp [hT, GoMap.get_set, hk]
  · simp [hT]

theorem memberAt_Unsubscribe (b : Broker) (s : Ptr) (ts : List String) (T k : String)
    (h : k ≠ idOf b s ∨ T ∉ ts) : memberAt (Unsubscribe b s ts) T k = memberAt b T k := by
  rw [memberAt_eq, memberAt_eq, Unsubscribe_get]
  by_cases hT : T ∈ ts
  · have hk : k ≠ idOf b s := h.resolve_right (fun h' => h' hT)
    cases hg : b.topics.get T <;> simp [hT, GoMap.get_delete, hk]
  · simp [hT]

theorem Detach_deref_ne (b : Broker) (s q : Ptr) (h : q ≠ s) :
    deref (Detach b s).heap q = deref b.heap q := by
  rw [Detach_heap, Unsubscribe_deref_ne _ _ _ _ h]
  exact deref_destroy_ne b.heap s q h

theorem memberAt_Detach (b : Broker) (s : Ptr) (T k : String) (h : k ≠ idOf b s) :
    memberAt (Detach b s) T k = memberAt b T k := by
  have e : memberAt (Detach b s) T k =
      memberAt (Unsubscribe (destroyIn b s) s (topicsOf b s).keys) T k := by
    simp only [memberAt, members, Detach_topics]
  rw [e, memberAt_Unsubscribe _ _ _ _ _ (Or.inl (by simpa using h))]
  rfl

theorem Subscribers_Detach (b : Broker) (hinv : MembershipInv b) (s : Ptr)
    (hs : s < b.heap.length) (T : String) :
    Subscribers (Detach b s) T + (if T ∈ (topicsOf b s).keys then 1 else 0) =
      Subscribers b T := by
  have e : Subscribers (Detach b s) T =
      Subscribers (Unsubscribe (destroyIn b s) s (topicsOf b s).keys) T := by
    simp only [Subscribers, Detach_topics]
  have h := Subscribers_Unsubscribe (destroyIn b s) s (topicsOf b s).keys T
  have hk : IsKey (destroyIn b s) T (idOf (destroyIn b s) s) ↔ T ∈ (topicsOf b s).keys := by
    rw [isKey_congr b (destroyIn b s) rfl, destroyIn_idOf]
    exact hinv s hs T
  rw [e]
  by_cases hT : T ∈ (topicsOf b s).keys
  · have hk' := hk.2 hT
    simp only [hT, hk', and_self, if_true] at h ⊢
    exact h
  · simp only [hT, false_and, if_false] at h ⊢
    exact h

/-- C18: `Subscribe(s, ts...)` and `Unsubscribe(s, ts...)` leave `b.subscribers`
unchanged, leave unchanged what every topic's set stores under an id other than
`s.id`, and what the sets of topics outside `ts` store, and leave every other
subscriber object (so its topic set) unchanged. `Detach(s)` leaves unchanged what
the topic sets and the registry store under other ids and every other subscriber
object; under the topic-membership invariant `Subscribers(T)` drops by exactly 1 for
each topic in `s.topics` and is unchanged for every other topic. -/
theorem membership_frame (b : Broker) (hinv : MembershipInv b) (s : Ptr) (ts : List String) :
    ((Subscribe b s ts).subscribers = b.subscribers ∧
      (∀ T k, k ≠ idOf b s ∨ T ∉ ts → memberAt (Subscribe b s ts) T k = memberAt b T k) ∧
      (∀ T, T ∉ ts → (Subscribe b s ts).topics.get T = b.topics.get T) ∧
      (∀ q, q ≠ s → deref (Subscribe b s ts).heap q = deref b.heap q)) ∧
    ((Unsubscribe b s ts).subscribers = b.subscribers ∧
      (∀ T k, k ≠ idOf b s ∨ T ∉ ts → memberAt (Unsubscribe b s ts) T k = memberAt b T k) ∧
      (∀ T, T ∉ ts → (Unsubscribe b s ts).topics.get T = b.topics.get T) ∧
      (∀ q, q ≠ s → deref (Unsubscribe b s ts).heap q = deref b.heap q)) ∧
    ((∀ T k, k ≠ idOf b s → memberAt (Detach b s) T k = memberAt b T k) ∧
      (∀ q, q ≠ s → deref (Detach b s).heap q = deref b.heap q) ∧
      (∀ k, k ≠ idOf b s → (Detach b s).subscribers.get k = b.subscribers.get k) ∧
      (s < b.heap.length → ∀ T,
        Subscribers (Detach b s) T + (if T ∈ (topicsOf b s).keys then 1 else 0) =
          Subscribers b T)) := by
  refine ⟨⟨Subscribe_subscribers b s ts, memberAt_Subscribe b s ts, ?_,
      fun q hq => Subscribe_deref_ne b s q ts hq⟩,
    ⟨Unsubscribe_subscribers b s ts, memberAt_Unsubscribe b s ts, ?_,
      fun q hq => Unsubscribe_deref_ne b s q ts hq⟩,
    memberAt_Detach b s, fun q hq => Detach_deref_ne b s q hq, ?_,
    fun hs T => Subscribers_Detach b hinv s hs T⟩
  · intro T hT
    rw [Subscribe_get, if_neg hT]
  · intro T hT
    rw [Unsubscribe_get, if_neg hT]
  · intro k hk
    rw [Detach_subscribers, GoMap.get_delete, if_neg hk]

theorem membership_frame_witness :
    MembershipInv scenario ∧
    (topicsOf scenario 1).keys = ["news", "sports"] ∧
    Subscribers scenario "news" = 2 ∧ Subscribers (Detach scenario 1) "news" = 1 ∧
    ((0 : Ptr) ≠ 1 → deref (Detach scenario 1).heap 0 = deref scenario.heap 0) ∧
    ((1 : Ptr) < scenario.heap.length → ∀ T,
      Subscribers (Detach scenario 1) T + (if T ∈ (topicsOf scenario 1).keys then 1 else 0) =
        Subscribers scenario T) :=
  ⟨MembershipInv_scenario, by decide, by decide, by decide,
    (membership_frame scenario MembershipInv_scenario 1 ["news"]).2.2.2.1 0,
    (membership_frame scenario MembershipInv_scenario 1 ["news"]).2.2.2.2.2⟩

/-! ## C19 -/

theorem Live_NewBroker : Live NewBroker where
  good := Good_NewBroker
  registered := by intro p hp; simp [NewBroker] at hp
  alive := by intro T m k p h; simp [NewBroker] at h

theorem Live_Attach (b : Broker) (r : List Byte) (now : Int) (hb : Live b)
    (hfresh : hexEncode r ∉ b.heap.map Subscriber.id) :
    Live ((Op.attach (.ok r) now).apply b) where
  good := Good_Attach b r now hb.good hfresh
  registered := by
    intro p hp hd
    have hp' : p < b.heap.length + 1 := by
      simpa [Op.apply, Attach] using hp
    show (b.subscribers.set (hexEncode r) b.heap.length).get
      (deref (b.heap ++ [_]) p).id = some p
    change (deref (b.heap ++ [_]) p).destroyed = false at hd
    rw [GoMap.get_set]
    by_cases hlt : p < b.heap.length
    · rw [deref_append_old _ _ _ hlt] at hd ⊢
      have hne : (deref b.heap p).id ≠ hexEncode r :=
        fun e => hfresh (e ▸ mem_ids_of_valid b p hlt)
      rw [if_neg hne]
      exact hb.registered p hlt hd
    · have : p = b.heap.length := Nat.le_antisymm (Nat.lt_succ_iff.1 hp') (Nat.le_of_not_lt hlt)
      subst this
      rw [deref_append_new]
      simp
  alive := by
    intro T m k p hm hk
    obtain ⟨hp, _⟩ := hb.good.keyed T m k p hm hk
    show (deref (b.heap ++ [_]) p).destroyed = false
    rw [deref_append_old _ _ _ hp]
    exact hb.alive T m k p hm hk

theorem Live_Subscribe (b : Broker) (s : Ptr) (ts : List String) (hb : Live b)
    (hs : s < b.heap.length) (hd : (deref b.heap s).destroyed = false) :
    Live (Subscribe b s ts) where
  good := Good_Subscribe b s ts hb.good hs
  registered := by
    intro p hp hpd
    rw [Subscribe_length] at hp
    rw [Subscribe_destroyed] at hpd
    rw [Subscribe_subscribers, Subscribe_idOf]
    exact hb.registered p hp hpd
  alive := by
    intro T m k p hm hk
    rw [Subscribe_destroyed]
    rw [Subscribe_get] at hm
    by_cases hT : T ∈ ts
    · simp only [hT, if_true, Option.some.injEq] at hm
      subst hm
      rw [GoMap.get_set] at hk
      by_cases hkk : k = idOf b s
      · simp only [hkk, if_true, Option.some.injEq] at hk
        subst hk
        exact hd
      · simp only [hkk, if_false] at hk
        cases hg : b.topics.get T with
        | none => simp [hg] at hk
        | some m0 =>
          simp only [hg, Option.getD_some] at hk
          exact hb.alive T m0 k p hg hk
    · simp only [hT, if_false] at hm
      exact hb.alive T m k p hm hk

theorem stored_of_Unsubscribe (b : Broker) (s : Ptr) (ts : List String) (T : String)
    (m : GoMap Ptr) (k : String) (p : Ptr)
    (hm : (Unsubscribe b s ts).topics.get T = some m) (hk : m.get k = some p) :
    ∃ m0, b.topics.get T = some m0 ∧ m0.get k = some p := by
  rw [Unsubscribe_get] at hm
  by_cases hT : T ∈ ts
  · simp only [hT, if_true] at hm
    cases hg : b.topics.get T with
    | none => simp [hg] at hm
    | some m0 =>
      simp only [hg, Option.map_some', Option.some.injEq] at hm
      subst hm
      rw [GoMap.get_delete] at hk
      by_cases hkk : k = idOf b s
      · simp [hkk] at hk
      · simp only [hkk, if_false] at hk
        exact ⟨m0, rfl, hk⟩
  · simp only [hT, if_false] at hm
    exact ⟨m, hm, hk⟩

theorem Live_Unsubscribe (b : Broker) (s : Ptr) (ts : List String) (hb : Live b)
    (hs : s < b.heap.length) : Live (Unsubscribe b s ts) where
  good := Good_Unsubscribe b s ts hb.good hs
  registered := by
    intro p hp hpd
    rw [Unsubscribe_length] at hp
    rw [Unsubscribe_destroyed] at hpd
    rw [Unsubscribe_subscribers, Unsubscribe_idOf]
    exact hb.registered p hp hpd
  alive := by
    intro T m k p hm hk
    rw [Unsubscribe_destroyed]
    obtain ⟨m0, h0, hk0⟩ := stored_of_Unsubscribe b s ts T m k p hm hk
    exact hb.alive T m0 k p h0 hk0

theorem Live_Detach (b : Broker) (s : Ptr) (hb : Live b) (hs : s < b.heap.length) :
    Live (Detach b s) where
  good := Good_Detach b s hb.good hs
  registered := by
    intro p hp hpd
    rw [Detach_length] at hp
    have hps : p ≠ s := by
      intro e
      rw [e, Detach_destroyed b s hs] at hpd
      exact absurd hpd (by decide)
    rw [Detach_deref_ne b s p hps] at hpd
    rw [Detach_idOf, Detach_subscribers, GoMap.get_delete]
    have hne : idOf b p ≠ idOf b s := fun e => hps (hb.good.ids p s hp hs e)
    rw [if_neg hne]
    exact hb.registered p hp hpd
  alive := by
    intro T m k p hm hk
    have hps : p ≠ s := fun e => NotStored_after_Detach b hb.good s hs T m k hm (e ▸ hk)
    rw [Detach_deref_ne b s p hps]
    rw [Detach_topics] at hm
    obtain ⟨m0, h0, hk0⟩ := stored_of_Unsubscribe _ s _ T m k p hm hk
    exact hb.alive T m0 k p h0 hk0

theorem Live_apply (b : Broker) (op : Op) (hb : Live b) (hl : op.LegalLive b) :
    Live (op.apply b) := by
  cases op with
  | attach rnd now =>
    cases rnd with
    | error e => exact hb
    | ok r => exact Live_Attach b r now hb hl
  | subscribe s ts => exact Live_Subscribe b s ts hb hl.1 hl.2
  | unsubscribe s ts => exact Live_Unsubscribe b s ts hb hl
  | detach s => exact Live_Detach b s hb hl

theorem Live_run (ops : List Op) (b : Broker) (hb : Live b) (hl : LiveTrace b ops) :
    Live (run b ops) := by
  induction ops generalizing b with
  | nil => exact hb
  | cons op rest ih => exact ih (op.apply b) (Live_apply b op hb hl.1) hl.2

theorem Live_of_ReachableLive (b : Broker) (h : ReachableLive b) : Live b := by
  obtain ⟨ops, hl, rfl⟩ := h
  exact Live_run ops NewBroker Live_NewBroker hl

/-- C19: in every state reachable from `NewBroker()` by Attach, Subscribe,
Unsubscribe and Detach calls none of which passes a detached subscriber to
`Subscribe`, every subscriber stored in a topic's set is a subscriber object, stored
under its id, registered in `b.subscribers` under that id, and not destroyed; so
every delivery attempt of `Broadcast` goes to a registered subscriber that is not
destroyed. -/
theorem members_live {P : Type} (b : Broker) (hb : ReachableLive b) :
    (∀ T k p, (k, p) ∈ members b T →
      p < b.heap.length ∧ idOf b p = k ∧ b.subscribers.get k = some p ∧
        (deref b.heap p).destroyed = false) ∧
    (∀ (clock : Nat → Int) (payload : P) (ts : List String),
      ∀ d ∈ Broadcast b clock payload ts,
        d.target < b.heap.length ∧
        b.subscribers.get (idOf b d.target) = some d.target ∧
        (deref b.heap d.target).destroyed = false) := by
  have hl := Live_of_ReachableLive b hb
  have hmem : ∀ T k p, (k, p) ∈ members b T →
      p < b.heap.length ∧ idOf b p = k ∧ b.subscribers.get k = some p ∧
        (deref b.heap p).destroyed = false := by
    intro T k p h
    obtain ⟨m, hm, hk⟩ := (mem_members b T k p).1 h
    obtain ⟨hp, hid⟩ := hl.good.keyed T m k p hm hk
    have hd := hl.alive T m k p hm hk
    exact ⟨hp, hid, hid ▸ hl.registered p hp hd, hd⟩
  refine ⟨hmem, ?_⟩
  intro clock payload ts d hd
  obtain ⟨T, _, h⟩ := mem_broadcastFrom b clock payload ts 0 d hd
  rw [List.mem_map] at h
  obtain ⟨⟨k, q⟩, hq, e⟩ := h
  simp only at e
  subst e
  obtain ⟨h1, h2, h3, h4⟩ := hmem T k d.target hq
  exact ⟨h1, h2 ▸ h3, h4⟩

theorem members_live_witness :
    ReachableLive (run NewBroker liveOps) ∧
    (deref (run NewBroker liveOps).heap 1).destroyed = true ∧
    Broadcast (run NewBroker liveOps) (fun _ => 0) "x" ["news", "sports", "weather"] =
      [⟨0, ⟨"news", "x", 0⟩⟩, ⟨0, ⟨"weather", "x", 0⟩⟩] ∧
    (∀ (clock : Nat → Int) (payload : String) (ts : List String),
      ∀ d ∈ Broadcast (run NewBroker liveOps) clock payload ts,
        d.target < (run NewBroker liveOps).heap.length ∧
        (run NewBroker liveOps).subscribers.get (idOf (run NewBroker liveOps) d.target) =
          some d.target ∧
        (deref (run NewBroker liveOps).heap d.target).destroyed = false) :=
  ⟨⟨liveOps, by decide, rfl⟩, by decide, by decide,
    (members_live (run NewBroker liveOps) ⟨liveOps, by decide, rfl⟩).2⟩

/-! ## C20 -/

theorem setE_setE {V : Type} (l : List (String × V)) (k : String) (v w : V) :
    setE (setE l k v) k w = setE l k w := by
  induction l with
  | nil => simp [setE]
  | cons e r ih =>
    obtain ⟨k0, v0⟩ := e
    by_cases h0 : k0 = k
    · simp [setE, h0]
    · simp [setE, h0, ih]

theorem GoMap.set_set_key {V : Type} (m : GoMap V) (k : String) (v w : V) :
    (m.set k v).set k w = m.set k w :=
  GoMap.ext (setE_setE m.entries k v w)

theorem setTopics_setTopics (h : List Subscriber) (p : Ptr) (t t' : GoMap Bool) :
    setTopics (setTopics h p t) p t' = setTopics h p t' := by
  by_cases hp : p < h.length
  · simp only [setTopics, List.set_set]
    congr 1
    have := deref_setTopics_self h p t hp
    simp only [setTopics] at this
    rw [this]
  · simp [setTopics, List.set_eq_of_length_le (Nat.le_of_not_lt hp)]

theorem Subscribe_one (b : Broker) (s : Ptr) (T : String) :
    Subscribe b s [T] = subscribeOne s b T := rfl

theorem Unsubscribe_one (b : Broker) (s : Ptr) (T : String) :
    Unsubscribe b s [T] = unsubscribeOne s b T := rfl

/-- State after `Subscribe(s, T)` then `Unsubscribe(s, T)` when `s` was not a member
of `T`: the original one, with an entry for `T` (an empty one if there was none). -/
theorem Unsubscribe_Subscribe_eq (b : Broker) (hinv : MembershipInv b) (s : Ptr) (T : String)
    (hnon : ¬ IsKey b T (idOf b s)) :
    Unsubscribe (Subscribe b s [T]) s [T] =
      { b with topics := b.topics.set T ((b.topics.get T).getD GoMap.empty) } := by
  have hT : T ∉ (topicsOf b s).keys := not_mem_topicsOf_of_not_key b hinv s T hnon
  have hk : idOf b s ∉ ((b.topics.get T).getD GoMap.empty).keys := by
    intro hk
    cases hg : b.topics.get T with
    | none => simp [hg] at hk
    | some m =>
      rw [hg] at hk
      exact hnon ((isKey_iff b T _).2 ⟨m, hg, hk⟩)
  have hget : (Subscribe b s [T]).topics.get T =
      some (((b.topics.get T).getD GoMap.empty).set (idOf b s) s) := by
    rw [Subscribe_get]; simp
  apply Broker.ext3
  · rw [Unsubscribe_subscribers, Subscribe_subscribers]
  · have e1 : (Unsubscribe (Subscribe b s [T]) s [T]).topics =
        (Subscribe b s [T]).topics.set T
          ((((b.topics.get T).getD GoMap.empty).set (idOf b s) s).delete (idOf b s)) := by
      rw [Unsubscribe_one]
      simp only [unsubscribeOne, hget]
      rw [show (deref (Subscribe b s [T]).heap s).id = idOf b s from Subscribe_idOf b s s [T]]
    have e2 : (Subscribe b s [T]).topics =
        (if b.topics.get T = none then b.topics.set T GoMap.empty else b.topics).set T
          (((b.topics.get T).getD GoMap.empty).set (idOf b s) s) := by
      rw [Subscribe_one]
      cases hg : b.topics.get T <;> simp [subscribeOne, hg, idOf, GoMap.get_set]
    rw [e1, GoMap.delete_set_new _ _ _ hk, e2, GoMap.set_set_key]
    cases hg : b.topics.get T with
    | none => simp [GoMap.set_set_key]
    | some m => simp
  · rw [Unsubscribe_one, unsubscribeOne_heap, hget]
    simp only [reduceCtorEq, if_false]
    rw [Subscribe_one, subscribeOne_heap]
    by_cases hs : s < b.heap.length
    · have : topicsOf (subscribeOne s b T) s = (topicsOf b s).set T true :=
        subscribeOne_topicsOf s b T hs
      rw [this, GoMap.delete_set_new _ _ _ hT, setTopics_setTopics]
      exact setTopics_eq_self _ _ _ (fun _ => rfl)
    · simp [setTopics, List.set_eq_of_length_le (Nat.le_of_not_lt hs)]

/-- C20: under the topic-membership invariant, for `s` not a member of `T`,
`Subscribe(s, T)` followed by `Unsubscribe(s, T)` restores every subscriber object
(so `s.topics`), `b.subscribers`, `Subscribers(T')` and the members of every topic
`T'`; `b.topics` (indeed the whole state) is the original one exactly when `T`
already had an entry, and otherwise it is the original one with an empty entry for
`T` added, so that `GetTopics()` gains `T`. -/
theorem Unsubscribe_undoes_Subscribe (b : Broker) (hinv : MembershipInv b) (s : Ptr)
    (T : String) (hnon : ¬ IsKey b T (idOf b s)) :
    (Unsubscribe (Subscribe b s [T]) s [T]).heap = b.heap ∧
    (Unsubscribe (Subscribe b s [T]) s [T]).subscribers = b.subscribers ∧
    (∀ T', Subscribers (Unsubscribe (Subscribe b s [T]) s [T]) T' = Subscribers b T') ∧
    (∀ T', members (Unsubscribe (Subscribe b s [T]) s [T]) T' = members b T') ∧
    ((Unsubscribe (Subscribe b s [T]) s [T]).topics = b.topics ↔ b.topics.get T ≠ none) ∧
    (b.topics.get T ≠ none → Unsubscribe (Subscribe b s [T]) s [T] = b) ∧
    (b.topics.get T = none →
      (Unsubscribe (Subscribe b s [T]) s [T]).topics.entries =
        b.topics.entries ++ [(T, GoMap.empty)] ∧
      GetTopics (Unsubscribe (Subscribe b s [T]) s [T]) = GetTopics b ++ [T]) := by
  have he := Unsubscribe_Subscribe_eq b hinv s T hnon
  have hmem : ∀ T', members (Unsubscribe (Subscribe b s [T]) s [T]) T' = members b T' := by
    intro T'
    rw [he]
    unfold members
    simp only [GoMap.get_set]
    by_cases h : T' = T
    · subst h
      cases hg : b.topics.get T' <;> simp [GoMap.empty]
    · simp [h]
  have hsome : b.topics.get T ≠ none →
      b.topics.set T ((b.topics.get T).getD GoMap.empty) = b.topics := by
    intro h
    cases hg : b.topics.get T with
    | none => exact absurd hg h
    | some m => exact GoMap.set_eq_self _ _ _ hg
  have hnone : b.topics.get T = none →
      (b.topics.set T ((b.topics.get T).getD GoMap.empty)).entries =
        b.topics.entries ++ [(T, GoMap.empty)] := by
    intro h
    rw [h]
    exact setE_new _ _ _ ((GoMap.get_eq_none _ _).1 h)
  refine ⟨by rw [he], by rw [he], ?_, hmem, ?_, ?_, ?_⟩
  · intro T'
    rw [Subscribers_eq_length, Subscribers_eq_length, hmem]
  · rw [he]
    constructor
    · intro h hg
      have h1 := congrArg (fun m => GoMap.len m) h
      simp only [GoMap.len, hnone hg] at h1
      simp at h1
    · exact hsome
  · intro h
    rw [he]
    exact Broker.ext3 _ _ rfl (hsome h) rfl
  · intro h
    rw [he]
    refine ⟨hnone h, ?_⟩
    simp only [GetTopics, GoMap.keys, hnone h, List.map_append, List.map_cons, List.map_nil]

theorem Unsubscribe_undoes_Subscribe_witness :
    MembershipInv scenario ∧ ¬ IsKey scenario "weather" (idOf scenario 0) ∧
    Subscribe scenario 0 ["weather"] ≠ scenario ∧
    (Unsubscribe (Subscribe scenario 0 ["weather"]) 0 ["weather"]).heap = scenario.heap ∧
    (Unsubscribe (Subscribe scenario 0 ["weather"]) 0 ["weather"]).subscribers =
      scenario.subscribers ∧
    GetTopics (Unsubscribe (Subscribe scenario 0 ["weather"]) 0 ["weather"]) =
      ["news", "sports", "weather"] ∧
    (scenario.topics.get "weather" = none →
      (Unsubscribe (Subscribe scenario 0 ["weather"]) 0 ["weather"]).topics.entries =
        scenario.topics.entries ++ [("weather", GoMap.empty)] ∧
      GetTopics (Unsubscribe (Subscribe scenario 0 ["weather"]) 0 ["weather"]) =
        GetTopics scenario ++ ["weather"]) :=
  ⟨MembershipInv_scenario, by decide, by decide,
    (Unsubscribe_undoes_Subscribe scenario MembershipInv_scenario 0 "weather" (by decide)).1,
    (Unsubscribe_undoes_Subscribe scenario MembershipInv_scenario 0 "weather" (by decide)).2.1,
    by decide,
    (Unsubscribe_undoes_Subscribe scenario MembershipInv_scenario 0 "weather"
      (by decide)).2.2.2.2.2.2⟩

end Pubsub
